import Mathlib

/-!
Verification of the counterfactual-search core of the CoDy repository.

Predictions (python floats standing for signed real scores) are modelled as
rationals `ℚ`; event ids as integers `ℤ`.  Python's builtin `abs` is modelled
by `pyAbs`, python's stable `sorted(..., key=...)` by the stable insertion
sorts `pySortedBy` / `pySortedByDesc`.  Mutable search trees are modelled as
arenas (a list of node records addressed by index, children referencing
parents by index), and python loops / recursions whose termination is not
structural carry an explicit fuel argument and return `none` on exhaustion.
-/

/-- Model of python's builtin `abs` on a signed score. -/
def pyAbs (q : ℚ) : ℚ := if q < 0 then -q else q

theorem pyAbs_eq_abs (q : ℚ) : pyAbs q = |q| := by
  unfold pyAbs
  rcases lt_or_ge q 0 with h | h
  · rw [if_pos h, abs_of_neg h]
  · rw [if_neg (not_lt.mpr h), abs_of_nonneg h]

/-- Embedding of `calculate_prediction_delta` from
`src/CFTGNNExplainer/explainer/base.py` lines 35-38 (identical in the
`cody` package): if the assessed prediction crossed zero the delta is the sum
of the absolute values, otherwise the loss of absolute magnitude. -/
def calculate_prediction_delta (original_prediction prediction_to_assess : ℚ) : ℚ :=
  if prediction_to_assess * original_prediction < 0 then
    pyAbs prediction_to_assess + pyAbs original_prediction
  else
    pyAbs original_prediction - pyAbs prediction_to_assess

/-- Stable insertion step for an ascending sort: the new element is placed
before the first element whose key is not smaller, so that elements with
equal keys keep their original relative order (python's `sorted` is stable). -/
def insortAsc {α β : Type} [LinearOrder β] (key : α → β) : α → List α → List α
  | x, [] => [x]
  | x, y :: ys => if key y < key x then y :: insortAsc key x ys else x :: y :: ys

/-- Model of python's stable `sorted(l, key=key)` (ascending). -/
def pySortedBy {α β : Type} [LinearOrder β] (key : α → β) (l : List α) : List α :=
  l.foldr (insortAsc key) []

/-- Stable insertion step for a descending sort (python's
`sorted(l, key=key, reverse=True)`). -/
def insortDesc {α β : Type} [LinearOrder β] (key : α → β) : α → List α → List α
  | x, [] => [x]
  | x, y :: ys => if key x < key y then y :: insortDesc key x ys else x :: y :: ys

/-- Model of python's stable `sorted(l, key=key, reverse=True)`. -/
def pySortedByDesc {α β : Type} [LinearOrder β] (key : α → β) (l : List α) : List α :=
  l.foldr (insortDesc key) []

/-- Data of a `BatchSearchTreeNode` (`src/cody/explainer/searching.py`, also
`TreeNode` in `src/CFTGNNExplainer/explainer/searching.py`) as read by
`select_best_cf_example`: depth, exploitation score and the two predictions. -/
structure TreeNodeData where
  depth : ℕ
  exploitation_score : ℚ
  original_prediction : ℚ
  prediction : ℚ
deriving Repr, DecidableEq

/-- Embedding of `select_best_cf_example` from
`src/cody/explainer/searching.py` lines 14-29 (identical to
`src/CFTGNNExplainer/explainer/searching.py` lines 14-28).  An empty
candidate list makes the python code raise `IndexError` on
`sorted_candidates[0]`, modelled by `none`. -/
def select_best_cf_example (current_best_example : Option TreeNodeData)
    (candidate_examples : List TreeNodeData) : Option TreeNodeData :=
  match pySortedBy (fun node => node.depth) candidate_examples with
  | [] => none
  | sorted_head :: _ =>
    let min_depth := sorted_head.depth
    let early_return : Bool :=
      match current_best_example with
      | some cur => decide (min_depth > cur.depth)
      | none => false
    if early_return then current_best_example
    else
      let min_depth_candidates :=
        candidate_examples.filter (fun candidate => candidate.depth == min_depth)
      match pySortedByDesc (fun node => node.exploitation_score) min_depth_candidates with
      | [] => none
      | best_candidate :: _ =>
        match current_best_example with
        | none => some best_candidate
        | some cur =>
          if min_depth < cur.depth ∨
              calculate_prediction_delta cur.original_prediction cur.prediction >
                calculate_prediction_delta best_candidate.original_prediction
                  best_candidate.prediction
          then some best_candidate
          else some cur

/-- Result record mirroring the `CounterFactualExample` dataclass of
`src/CFTGNNExplainer/explainer/base.py` lines 14-32. -/
structure CounterFactualExample where
  original_prediction : ℚ
  counterfactual_prediction : ℚ
  achieves_counterfactual_explanation : Bool
  event_ids : List ℤ
  event_importances : List ℚ
deriving Repr, DecidableEq

/-- Model of the python slice `l[index-1:index]`: empty for `index = 0`
(python turns it into `l[-1:0]`), else the one-element slice at
`index - 1`. -/
def pySliceOneBack (l : List ℚ) (index : ℕ) : List ℚ :=
  if index = 0 then [] else (l.drop (index - 1)).take 1

/-- Embedding of `CounterFactualExample.get_absolute_importances`
(`src/CFTGNNExplainer/explainer/base.py` lines 27-29):
`importance - np.sum(event_importances[index-1:index])` for each
enumerated importance. -/
def CounterFactualExample.get_absolute_importances
    (cf : CounterFactualExample) : List ℚ :=
  cf.event_importances.enum.map
    (fun p => p.2 - (pySliceOneBack cf.event_importances p.1).sum)

/-- Embedding of `CounterFactualExample.get_relative_importances`
(`src/CFTGNNExplainer/explainer/base.py` lines 31-32): absolute importances
divided by `event_importances[-1]` (python raises on an empty list, modelled
by the empty result). -/
def CounterFactualExample.get_relative_importances
    (cf : CounterFactualExample) : List ℚ :=
  match cf.event_importances.getLast? with
  | none => []
  | some last => cf.get_absolute_importances.map (fun a => a / last)

/-! ### Claim C1: best-counterfactual selection at equal depth -/

/-- C1 (code bug): `select_best_cf_example` with a current best and a single
candidate of the same depth but strictly lower exploitation score returns the
candidate, not the higher-score current best.  The code's equal-depth branch
compares `delta(current) > delta(candidate)` and returns the candidate when
the current best is the better one — the comparison is inverted relative to
the function's purpose, to the analogous bookkeeping in
`src/CFTGNNExplainer/explainer/mcts.py` lines 272-276 and to the spec. -/
theorem select_best_cf_example_equal_depth_returns_lower_score :
    select_best_cf_example
        (some { depth := 1, exploitation_score := 3,
                original_prediction := 1, prediction := -2 })
        [{ depth := 1, exploitation_score := 2,
           original_prediction := 1, prediction := -1 }] =
      some { depth := 1, exploitation_score := 2,
             original_prediction := 1, prediction := -1 } ∧
    (2 : ℚ) < 3 := by
  constructor
  · norm_num [select_best_cf_example, pySortedBy, pySortedByDesc, insortAsc,
      insortDesc, calculate_prediction_delta, pyAbs]
  · norm_num

/-! ### Claim C7: importance round trip -/

theorem pySliceOneBack_sum (l : List ℚ) (j : ℕ) (hj : j < l.length) :
    (pySliceOneBack l (j + 1)).sum = l[j] := by
  simp only [pySliceOneBack, if_neg (Nat.succ_ne_zero j), Nat.add_sub_cancel]
  rw [List.drop_eq_getElem_cons hj]
  have ht : List.take 1 (l[j] :: List.drop (j + 1) l) = [l[j]] := rfl
  rw [ht, List.sum_singleton]

theorem absolute_importances_eq_zipWith (l : List ℚ) :
    l.enum.map (fun p => p.2 - (pySliceOneBack l p.1).sum) =
      List.zipWith (· - ·) l (0 :: l) := by
  apply List.ext_getElem
  · simp [List.enum_length]
  · intro i h₁ h₂
    have hi : i < l.length := by simpa [List.enum_length] using h₁
    rw [List.getElem_map, List.getElem_enum, List.getElem_zipWith]
    rcases i with _ | j
    · simp [pySliceOneBack]
    · have hj : j < l.length := Nat.lt_of_succ_lt hi
      simp only [List.getElem_cons_succ]
      rw [pySliceOneBack_sum l j hj]

theorem zipWith_sub_self_telescopes (p : ℚ) (t : List ℚ) :
    (List.zipWith (· - ·) t (p :: t)).sum = t.getLastD p - p := by
  induction t generalizing p with
  | nil => simp
  | cons b t ih =>
    simp only [List.zipWith_cons_cons, List.sum_cons, ih b, List.getLastD_cons]
    ring

/-- C7 (confirmed): for a `CounterFactualExample` with a non-empty
`event_importances` list, the absolute importances sum to the last entry of
`event_importances`, and each relative importance is the corresponding
absolute importance divided by that last entry. -/
theorem importance_round_trip (cf : CounterFactualExample)
    (h : cf.event_importances ≠ []) :
    cf.get_absolute_importances.sum = cf.event_importances.getLast h ∧
    cf.get_relative_importances =
      cf.get_absolute_importances.map
        (fun a => a / cf.event_importances.getLast h) := by
  constructor
  · rw [CounterFactualExample.get_absolute_importances,
      absolute_importances_eq_zipWith]
    have hgl : cf.event_importances.getLastD 0 = cf.event_importances.getLast h := by
      rw [List.getLastD_eq_getLast?, List.getLast?_eq_getLast _ h]
      rfl
    rw [← hgl]
    obtain ⟨b, t, hbt⟩ := List.exists_cons_of_ne_nil h
    rw [hbt, zipWith_sub_self_telescopes]
    ring
  · rw [CounterFactualExample.get_relative_importances,
      List.getLast?_eq_getLast _ h]

/-- C7 witness: the round-trip theorem evaluated at a concrete two-step
example with importances `[3, 9/2]`. -/
theorem importance_round_trip_witness :
    ({ original_prediction := 4/5, counterfactual_prediction := -1/2,
       achieves_counterfactual_explanation := true, event_ids := [7, 9],
       event_importances := [3, 9/2] } : CounterFactualExample).event_importances
        ≠ [] ∧
    (({ original_prediction := 4/5, counterfactual_prediction := -1/2,
        achieves_counterfactual_explanation := true, event_ids := [7, 9],
        event_importances := [3, 9/2] } :
          CounterFactualExample).get_absolute_importances.sum =
        List.getLast [(3 : ℚ), 9/2] (by simp) ∧
      ({ original_prediction := 4/5, counterfactual_prediction := -1/2,
         achieves_counterfactual_explanation := true, event_ids := [7, 9],
         event_importances := [3, 9/2] } :
           CounterFactualExample).get_relative_importances =
        ({ original_prediction := 4/5, counterfactual_prediction := -1/2,
           achieves_counterfactual_explanation := true, event_ids := [7, 9],
           event_importances := [3, 9/2] } :
             CounterFactualExample).get_absolute_importances.map
          (fun a => a / List.getLast [(3 : ℚ), 9/2] (by simp))) :=
  ⟨by simp, importance_round_trip _ (by simp)⟩

/-! ### Candidate filtering and sampling (`src/cody/selection.py`,
`src/CFTGNNExplainer/explainer/sampler.py`) -/

/-- Helper loop of `filter_subgraph`: iterate over `known_cf_examples`
collecting, for every known flip set sharing at least `len - 1` members with
the exclusion list, the first member not yet excluded.  Python's
`cf_example[~np.isin(cf_example, already_excluded_events)][0]` raises an
`IndexError` when no member remains, modelled by `none`. -/
def collectFurtherEvents (excluded : List ℤ) : List (List ℤ) → Option (List ℤ)
  | [] => some []
  | cf_example :: rest =>
    let total_occurrences :=
      (excluded.filter (fun e => decide (e ∈ cf_example))).length
    if (total_occurrences : ℤ) ≥ (cf_example.length : ℤ) - 1 then
      let already_excluded_events :=
        excluded.filter (fun e => decide (e ∈ cf_example))
      match cf_example.filter (fun e => !decide (e ∈ already_excluded_events)) with
      | [] => none
      | event_to_exclude :: _ =>
        match collectFurtherEvents excluded rest with
        | none => none
        | some further => some (event_to_exclude :: further)
    else collectFurtherEvents excluded rest

/-- Embedding of `filter_subgraph` from `src/cody/selection.py` lines 25-38
(identical to `src/CFTGNNExplainer/explainer/sampler.py` lines 8-21).  The
subgraph data frame is modelled by its `COL_ID` column, a list of event ids;
`none` models the `IndexError` raised inside the known-flip loop. -/
def filter_subgraph (base_event_id : ℤ) (excluded_events : List ℤ)
    (subgraph : List ℤ) (known_cf_examples : Option (List (List ℤ))) :
    Option (List ℤ) :=
  let excluded := excluded_events ++ [base_event_id]
  let filtered_subgraph := subgraph.filter (fun e => !decide (e ∈ excluded))
  match known_cf_examples with
  | none => some filtered_subgraph
  | some known =>
    match collectFurtherEvents excluded known with
    | none => none
    | some further_events_to_exclude =>
      some (filtered_subgraph.filter
        (fun e => !decide (e ∈ further_events_to_exclude)))

/-- Embedding of `TemporalSelectionStrategy.rank_subgraph`
(`src/cody/selection.py` lines 67-72): the filtered subgraph ids in reverse
(most recent first) order. -/
def temporal_rank_subgraph (subgraph : List ℤ) (base_event_id : ℤ)
    (excluded_events : List ℤ) (known_cf_examples : Option (List (List ℤ))) :
    Option (List ℤ) :=
  (filter_subgraph base_event_id excluded_events subgraph
    known_cf_examples).map List.reverse

/-- Embedding of `SelectionStrategy.sample` (`src/cody/selection.py` lines
47-52), parameterised by the concrete variant's `rank_subgraph` (python
dynamic dispatch): return the whole ranking when it is shorter than `size`,
else its first `size` entries. -/
def selection_strategy_sample
    (rank_subgraph : ℤ → List ℤ → Option (List (List ℤ)) → Option (List ℤ))
    (base_event_id : ℤ) (excluded_events : List ℤ) (size : ℕ)
    (known_cf_examples : Option (List (List ℤ))) : Option (List ℤ) :=
  match rank_subgraph base_event_id excluded_events known_cf_examples with
  | none => none
  | some ranked_subgraph =>
    if ranked_subgraph.length < size then some ranked_subgraph
    else some (ranked_subgraph.take size)

/-! ### Claims C5, C8, C10: flip avoidance and failure behaviour of the
candidate selection -/

theorem length_filter_le_filter {α : Type} (l : List α) (p q : α → Bool)
    (h : ∀ a ∈ l, p a = true → q a = true) :
    (l.filter p).length ≤ (l.filter q).length := by
  induction l with
  | nil => simp
  | cons a t ih =>
    have ht : ∀ b ∈ t, p b = true → q b = true :=
      fun b hb => h b (List.mem_cons_of_mem a hb)
    by_cases hp : p a = true
    · rw [List.filter_cons_of_pos hp, List.filter_cons_of_pos (h a (List.mem_cons_self a t) hp)]
      simpa using ih ht
    · rw [List.filter_cons_of_neg (by simpa using hp)]
      by_cases hq : q a = true
      · rw [List.filter_cons_of_pos hq]
        exact le_trans (ih ht) (by simp)
      · rw [List.filter_cons_of_neg (by simpa using hq)]
        exact ih ht

theorem nodup_subset_length_le {α : Type} [DecidableEq α] (l₁ l₂ : List α)
    (hnd : l₁.Nodup) (hsub : ∀ a ∈ l₁, a ∈ l₂) : l₁.length ≤ l₂.length := by
  have h₁ : l₁.toFinset.card = l₁.length := List.toFinset_card_of_nodup hnd
  have h₂ : l₁.toFinset ⊆ l₂.toFinset := by
    intro a ha
    rw [List.mem_toFinset] at ha ⊢
    exact hsub a ha
  calc l₁.length = l₁.toFinset.card := h₁.symm
    _ ≤ l₂.toFinset.card := Finset.card_le_card h₂
    _ ≤ l₂.length := List.toFinset_card_le l₂

theorem filter_eq_singleton_of_unique {α : Type} (l : List α) (p : α → Bool)
    (r : α) (hnd : l.Nodup) (hr : r ∈ l) (hpr : p r = true)
    (hothers : ∀ m ∈ l, m ≠ r → p m = false) : l.filter p = [r] := by
  induction l with
  | nil => exact absurd hr (List.not_mem_nil r)
  | cons a t ih =>
    rcases List.mem_cons.mp hr with rfl | hrt
    · rw [List.filter_cons_of_pos hpr]
      have htnil : t.filter p = [] := by
        rw [List.filter_eq_nil_iff]
        intro b hb
        have hbr : b ≠ r := by
          rintro rfl
          exact (List.nodup_cons.mp hnd).1 hb
        simp [hothers b (List.mem_cons_of_mem r hb) hbr]
      rw [htnil]
    · have har : a ≠ r := by
        rintro rfl
        exact (List.nodup_cons.mp hnd).1 hrt
      rw [List.filter_cons_of_neg (by simp [hothers a (List.mem_cons_self a t) har])]
      exact ih (List.nodup_cons.mp hnd).2 hrt
        (fun m hm => hothers m (List.mem_cons_of_mem a hm))

/-- Helper for C5: whenever `collectFurtherEvents` returns normally, any
known flip set that meets the overlap threshold and whose first
not-yet-excluded member is `e` has contributed `e` to the returned list. -/
theorem collectFurtherEvents_mem (excluded : List ℤ)
    (known : List (List ℤ)) (F : List ℤ) (K : List ℤ) (e : ℤ)
    (hcol : collectFurtherEvents excluded known = some F) (hK : K ∈ known)
    (htrig : (((excluded.filter (fun x => decide (x ∈ K))).length : ℤ) ≥
      (K.length : ℤ) - 1))
    (hhead : (K.filter (fun x =>
      !decide (x ∈ excluded.filter (fun y => decide (y ∈ K))))).head? = some e) :
    e ∈ F := by
  induction known generalizing F with
  | nil => exact absurd hK (List.not_mem_nil K)
  | cons K' rest ih =>
    rw [collectFurtherEvents] at hcol
    rcases List.mem_cons.mp hK with rfl | hKrest
    · rw [if_pos htrig] at hcol
      simp only [] at hcol
      match hflt : K.filter (fun x =>
          !decide (x ∈ excluded.filter (fun y => decide (y ∈ K)))) with
      | [] => rw [hflt] at hcol; exact absurd hcol (by simp)
      | e' :: tail =>
        rw [hflt] at hcol hhead
        have he : e' = e := by simpa using hhead
        subst he
        match hrest : collectFurtherEvents excluded rest with
        | none => rw [hrest] at hcol; exact absurd hcol (by simp)
        | some further =>
          rw [hrest] at hcol
          have : F = e' :: further := by simpa using hcol.symm
          rw [this]
          exact List.mem_cons_self e' further
    · by_cases htrig' :
        (((excluded.filter (fun x => decide (x ∈ K'))).length : ℤ) ≥
          (K'.length : ℤ) - 1)
      · rw [if_pos htrig'] at hcol
        simp only [] at hcol
        match hflt : K'.filter (fun x =>
            !decide (x ∈ excluded.filter (fun y => decide (y ∈ K')))) with
        | [] => rw [hflt] at hcol; exact absurd hcol (by simp)
        | e' :: tail =>
          rw [hflt] at hcol
          match hrest : collectFurtherEvents excluded rest with
          | none => rw [hrest] at hcol; exact absurd hcol (by simp)
          | some further =>
            rw [hrest] at hcol
            have hF : F = e' :: further := by simpa using hcol.symm
            rw [hF]
            exact List.mem_cons_of_mem e' (ih further hrest hKrest)
      · rw [if_neg htrig'] at hcol
        exact ih F hcol hKrest

/-- Helper for C10: whenever `collectFurtherEvents` returns normally, every
known flip set that meets the overlap threshold still has a member outside
the exclusion list. -/
theorem collectFurtherEvents_some_missing (excluded : List ℤ)
    (known : List (List ℤ)) (F : List ℤ) (K : List ℤ)
    (hcol : collectFurtherEvents excluded known = some F) (hK : K ∈ known)
    (htrig : (((excluded.filter (fun x => decide (x ∈ K))).length : ℤ) ≥
      (K.length : ℤ) - 1)) :
    ∃ m ∈ K, m ∉ excluded := by
  induction known generalizing F with
  | nil => exact absurd hK (List.not_mem_nil K)
  | cons K' rest ih =>
    rw [collectFurtherEvents] at hcol
    by_cases htrig' :
      (((excluded.filter (fun x => decide (x ∈ K'))).length : ℤ) ≥
        (K'.length : ℤ) - 1)
    · rw [if_pos htrig'] at hcol
      simp only [] at hcol
      match hflt : K'.filter (fun x =>
          !decide (x ∈ excluded.filter (fun y => decide (y ∈ K')))) with
      | [] => rw [hflt] at hcol; exact absurd hcol (by simp)
      | e' :: tail =>
        rw [hflt] at hcol
        rcases List.mem_cons.mp hK with rfl | hKrest
        · have he' : e' ∈ K.filter (fun x =>
              !decide (x ∈ excluded.filter (fun y => decide (y ∈ K)))) := by
            rw [hflt]; exact List.mem_cons_self e' tail
          rw [List.mem_filter] at he'
          refine ⟨e', he'.1, fun hmem => ?_⟩
          have : e' ∈ excluded.filter (fun y => decide (y ∈ K)) :=
            List.mem_filter.mpr ⟨hmem, by simpa using he'.1⟩
          simpa [this] using he'.2
        · match hrest : collectFurtherEvents excluded rest with
          | none => rw [hrest] at hcol; exact absurd hcol (by simp)
          | some further => exact ih further hrest hKrest
    · rw [if_neg htrig'] at hcol
      rcases List.mem_cons.mp hK with rfl | hKrest
      · exact absurd htrig htrig'
      · exact ih F hcol hKrest

/-- C5 (confirmed): if a known flip set `K` shares all but one member `r`
with the exclusion set (excluded events plus base event) and
`filter_subgraph` returns normally, then `r` is not in the returned
candidate pool. -/
theorem known_flip_remaining_member_filtered (base : ℤ)
    (excluded_events : List ℤ) (subgraph : List ℤ) (known : List (List ℤ))
    (K : List ℤ) (r : ℤ) (out : List ℤ) (hK : K ∈ known) (hnd : K.Nodup)
    (hr : r ∈ K) (hrex : r ∉ excluded_events ++ [base])
    (hother : ∀ m ∈ K, m ≠ r → m ∈ excluded_events ++ [base])
    (hres : filter_subgraph base excluded_events subgraph (some known) =
      some out) :
    r ∉ out := by
  rw [filter_subgraph] at hres
  set excluded := excluded_events ++ [base] with hexdef
  have hfilterK : K.filter (fun x =>
      !decide (x ∈ excluded.filter (fun y => decide (y ∈ K)))) = [r] := by
    have hcongr : ∀ x ∈ K,
        (!decide (x ∈ excluded.filter (fun y => decide (y ∈ K)))) =
          (!decide (x ∈ excluded)) := by
      intro x hx
      by_cases hxe : x ∈ excluded
      · simp [List.mem_filter, hxe, hx]
      · simp [List.mem_filter, hxe]
    rw [List.filter_congr hcongr]
    exact filter_eq_singleton_of_unique K _ r hnd hr (by simp [hrex])
      (fun m hm hne => by simp [hother m hm hne])
  have htrig : ((excluded.filter (fun x => decide (x ∈ K))).length : ℤ) ≥
      (K.length : ℤ) - 1 := by
    have h1 : (K.filter (fun m => m != r)).length ≤
        (K.filter (fun m => decide (m ∈ excluded))).length := by
      apply length_filter_le_filter
      intro a ha hp
      have hane : a ≠ r := by simpa using hp
      simp [hother a ha hane]
    have h2 : (K.filter (fun m => decide (m ∈ excluded))).length ≤
        (excluded.filter (fun x => decide (x ∈ K))).length := by
      apply nodup_subset_length_le _ _ (List.Nodup.filter _ hnd)
      intro a ha
      rw [List.mem_filter] at ha
      exact List.mem_filter.mpr ⟨by simpa using ha.2, by simp [ha.1]⟩
    have h3 : (K.filter (fun m => m != r)).length = K.length - 1 := by
      rw [← List.Nodup.erase_eq_filter hnd r]
      exact List.length_erase_of_mem hr
    have hchain : K.length - 1 ≤
        (excluded.filter (fun x => decide (x ∈ K))).length := h3 ▸ h1.trans h2
    have hpos : 0 < K.length := List.length_pos.mpr (List.ne_nil_of_mem hr)
    omega
  match hcol : collectFurtherEvents excluded known with
  | none => rw [hcol] at hres; exact absurd hres (by simp)
  | some F =>
    rw [hcol] at hres
    have hrF : r ∈ F :=
      collectFurtherEvents_mem excluded known F K r hcol hK htrig
        (by rw [hfilterK]; rfl)
    have hout : out = (subgraph.filter (fun e => !decide (e ∈ excluded))).filter
        (fun e => !decide (e ∈ F)) := by simpa using hres.symm
    rw [hout]
    intro hcontra
    rw [List.mem_filter] at hcontra
    simp [hrF] at hcontra

/-- C5 witness: with known flip `{101, 102}` and excluded events `{101}`
(base event 50), event 102 is removed from the candidate pool. -/
theorem known_flip_remaining_member_filtered_witness :
    filter_subgraph 50 [101] [101, 102, 103] (some [[101, 102]]) =
      some [103] ∧ (102 : ℤ) ∉ [(103 : ℤ)] :=
  ⟨by decide,
    known_flip_remaining_member_filtered 50 [101] [101, 102, 103]
      [[101, 102]] [101, 102] 102 [103] (by decide) (by decide) (by decide)
      (by decide) (by decide) (by decide)⟩

/-- C10 (confirmed): when a known flip set is entirely contained in the
exclusion set, `filter_subgraph` hits the out-of-bounds read `[...][0]` on
the empty remaining-member array (modelled by `none`), shown at the concrete
input `base 50, excluded {101, 102}, known flip {101, 102}`; and whenever it
returns normally, every known flip meeting the overlap threshold still has a
member outside the exclusion set. -/
theorem filter_subgraph_crash_and_normal_return :
    filter_subgraph 50 [101, 102] [103] (some [[101, 102]]) = none ∧
    ∀ (base : ℤ) (excluded_events subgraph : List ℤ)
      (known : List (List ℤ)) (out K : List ℤ),
      filter_subgraph base excluded_events subgraph (some known) = some out →
      K ∈ known →
      ((((excluded_events ++ [base]).filter
          (fun x => decide (x ∈ K))).length : ℤ) ≥ (K.length : ℤ) - 1) →
      ∃ m ∈ K, m ∉ excluded_events ++ [base] := by
  constructor
  · decide
  · intro base excluded_events subgraph known out K hres hK htrig
    rw [filter_subgraph] at hres
    match hcol : collectFurtherEvents (excluded_events ++ [base]) known with
    | none => rw [hcol] at hres; exact absurd hres (by simp)
    | some F =>
      exact collectFurtherEvents_some_missing (excluded_events ++ [base])
        known F K hcol hK htrig

/-- C10 witness: the normal-return half applied at a concrete input where
the single known flip `{101, 102}` overlaps the exclusion set
`{101} ∪ {50}` in one of its two members, so member 102 remains outside. -/
theorem filter_subgraph_crash_and_normal_return_witness :
    filter_subgraph 50 [101] [101, 102, 103] (some [[101, 102]]) =
      some [103] ∧ ∃ m ∈ [(101 : ℤ), 102], m ∉ [(101 : ℤ)] ++ [50] :=
  ⟨by decide,
    filter_subgraph_crash_and_normal_return.2 50 [101] [101, 102, 103]
      [[101, 102]] [103] [101, 102] (by decide) (by decide) (by decide)⟩

/-- C8 counterexample: sampling from a pool that filters to empty returns
the empty candidate sequence normally; no `EmptyCandidatePool` failure
exists in the code (the name occurs nowhere in the repository). -/
theorem sample_empty_pool_returns_empty :
    selection_strategy_sample (temporal_rank_subgraph [5]) 5 [] 10
      (some []) = some [] := by decide

/-- C8 (corrected): whenever the filtered candidate pool is empty — in
particular at the root, where the excluded-event list is empty — `sample`
returns the empty candidate sequence rather than failing. -/
theorem sample_empty_filtered_pool_returns_empty
    (subgraph : List ℤ) (base : ℤ) (excluded_events : List ℤ) (size : ℕ)
    (known : Option (List (List ℤ)))
    (hpool : filter_subgraph base excluded_events subgraph known = some []) :
    selection_strategy_sample (temporal_rank_subgraph subgraph) base
      excluded_events size known = some [] := by
  rw [selection_strategy_sample, temporal_rank_subgraph, hpool]
  by_cases hsz : ([] : List ℤ).length < size <;> simp [hsz]

/-- C8 witness: the corrected behaviour at a concrete root call whose pool
contains only the base event itself. -/
theorem sample_empty_filtered_pool_returns_empty_witness :
    filter_subgraph 5 [] [5] (some []) = some [] ∧
    selection_strategy_sample (temporal_rank_subgraph [5]) 5 [] 10
      (some []) = some [] :=
  ⟨by decide, sample_empty_filtered_pool_returns_empty [5] 5 [] 10
    (some []) (by decide)⟩

/-! ### Claim C9: greedy search (`src/CFTGNNExplainer/explainer/greedy.py`) -/

/-- Embedding of `is_prediction_most_shifted` (`greedy.py` lines 10-17):
recompute the prediction delta inline and report whether it beats the
previous largest delta. -/
def is_prediction_most_shifted (original_prediction prediction_to_assess
    previous_delta : ℚ) : Bool × ℚ :=
  let delta :=
    if prediction_to_assess * original_prediction < 0 then
      pyAbs prediction_to_assess + pyAbs original_prediction
    else
      pyAbs original_prediction - pyAbs prediction_to_assess
  (decide (previous_delta < delta), delta)

/-- Embedding of `RecentEdgeSampler.sample`
(`src/CFTGNNExplainer/explainer/sampler.py` lines 44-51) as used by the
greedy explainer, which passes no `known_cf_examples` (python `None`, under
which `filter_subgraph` cannot raise, so the `none` branch is unreachable).
Numpy's `[-size:]` keeps the whole array when `size = 0`. -/
def recent_edge_sampler_sample (subgraph : List ℤ) (base_event_id : ℤ)
    (excluded_events : List ℤ) (size : ℕ) : List ℤ :=
  match filter_subgraph base_event_id excluded_events subgraph none with
  | none => []
  | some filtered_subgraph =>
    if filtered_subgraph.length < size then filtered_subgraph
    else if size = 0 then filtered_subgraph
    else filtered_subgraph.drop (filtered_subgraph.length - size)

/-- Accumulator of the candidate `for` loop inside one greedy iteration
(`greedy.py` lines 75-93), together with the log of oracle calls (each
entry is the excluded-event list passed to the oracle). -/
structure GreedyIterResult where
  most_shifted_prediction : ℚ
  most_shifting_event_id : Option ℤ
  largest_prediction_delta : ℚ
  call_log : List (List ℤ)
deriving Repr, DecidableEq

/-- Embedding of the candidate loop of one greedy iteration (`greedy.py`
lines 75-93): one oracle call per candidate
(`predict_from_subgraph(explained, ..., cf_example_events + [candidate])`,
modelled by `oracle (cf_example_events ++ [candidate])`), keeping the
candidate with the largest delta seen so far. -/
def greedy_candidate_loop (original_prediction : ℚ) (oracle : List ℤ → ℚ)
    (cf_example_events : List ℤ) (candidate_events : List ℤ)
    (most_shifted_prediction : ℚ) (most_shifting_event_id : Option ℤ)
    (largest_prediction_delta : ℚ) : GreedyIterResult :=
  match candidate_events with
  | [] => ⟨most_shifted_prediction, most_shifting_event_id,
      largest_prediction_delta, []⟩
  | candidate_event_id :: rest =>
    let current_subgraph_prediction :=
      oracle (cf_example_events ++ [candidate_event_id])
    let r := is_prediction_most_shifted original_prediction
      current_subgraph_prediction largest_prediction_delta
    let next :=
      if r.1 then
        greedy_candidate_loop original_prediction oracle cf_example_events
          rest current_subgraph_prediction (some candidate_event_id) r.2
      else
        greedy_candidate_loop original_prediction oracle cf_example_events
          rest most_shifted_prediction most_shifting_event_id
          largest_prediction_delta
    { next with
      call_log := (cf_example_events ++ [candidate_event_id]) :: next.call_log }

/-- Embedding of the greedy `while` loop (`greedy.py` lines 68-110) with
explicit fuel.  It returns the assembled `CounterFactualExample`, the final
`largest_prediction_delta` and the concatenated oracle-call log. -/
def greedy_explain_loop (original_prediction : ℚ) (oracle : List ℤ → ℚ)
    (subgraph : List ℤ) (explained_event_id : ℤ) (sample_size : ℕ)
    (fuel : ℕ) (remaining_subgraph : List ℤ) (cf_example_prediction : ℚ)
    (cf_example_events : List ℤ) (cf_example_importances : List ℚ)
    (largest_prediction_delta : ℚ) :
    Option (CounterFactualExample × ℚ × List (List ℤ)) :=
  if fuel = 0 then none
  else if ¬(cf_example_prediction * original_prediction > 0) then
    some (⟨original_prediction, cf_example_prediction, true,
      cf_example_events, cf_example_importances⟩, largest_prediction_delta, [])
  else
    let candidate_events := recent_edge_sampler_sample subgraph
      explained_event_id cf_example_events sample_size
    let it := greedy_candidate_loop original_prediction oracle
      cf_example_events candidate_events cf_example_prediction none
      largest_prediction_delta
    match it.most_shifting_event_id with
    | none =>
      some (⟨original_prediction, cf_example_prediction, false,
        cf_example_events, cf_example_importances⟩,
        it.largest_prediction_delta, it.call_log)
    | some most_shifting_event_id =>
      match greedy_explain_loop original_prediction oracle subgraph
          explained_event_id sample_size (fuel - 1)
          (remaining_subgraph.filter
            (fun e => !decide (e = most_shifting_event_id)))
          it.most_shifted_prediction
          (cf_example_events ++ [most_shifting_event_id])
          (cf_example_importances ++ [it.largest_prediction_delta])
          it.largest_prediction_delta with
      | none => none
      | some (cf, delta, log) => some (cf, delta, it.call_log ++ log)
termination_by fuel
decreasing_by omega

/-- Embedding of `GreedyCFExplainer.explain` (`greedy.py` lines 42-118)
after oracle initialisation: the remaining pool starts as the subgraph
without the explained event, the committed prediction as the original one,
and the largest delta as 0. -/
def greedy_explain (original_prediction : ℚ) (oracle : List ℤ → ℚ)
    (subgraph : List ℤ) (explained_event_id : ℤ) (sample_size : ℕ)
    (fuel : ℕ) : Option (CounterFactualExample × ℚ × List (List ℤ)) :=
  greedy_explain_loop original_prediction oracle subgraph explained_event_id
    sample_size fuel
    (subgraph.filter (fun e => !decide (e = explained_event_id)))
    original_prediction [] [] 0

theorem greedy_candidate_loop_call_count (original_prediction : ℚ)
    (oracle : List ℤ → ℚ) (cf_example_events candidate_events : List ℤ)
    (most : ℚ) (mid : Option ℤ) (delta : ℚ) :
    (greedy_candidate_loop original_prediction oracle cf_example_events
      candidate_events most mid delta).call_log.length =
      candidate_events.length := by
  induction candidate_events generalizing most mid delta with
  | nil => simp [greedy_candidate_loop]
  | cons c rest ih =>
    rw [greedy_candidate_loop]
    simp only []
    split <;> simp [ih]

theorem recent_edge_sampler_sample_length_le (subgraph : List ℤ)
    (base_event_id : ℤ) (excluded_events : List ℤ) (size : ℕ)
    (hsz : 0 < size) :
    (recent_edge_sampler_sample subgraph base_event_id excluded_events
      size).length ≤ size := by
  rw [recent_edge_sampler_sample]
  match filter_subgraph base_event_id excluded_events subgraph none with
  | none => simp
  | some filtered =>
    simp only []
    split
    · omega
    · split
      · omega
      · rw [List.length_drop]
        omega

theorem greedy_candidate_loop_none_frozen (original_prediction : ℚ)
    (oracle : List ℤ → ℚ) (cf_example_events candidate_events : List ℤ)
    (most : ℚ) (mid : Option ℤ) (delta : ℚ)
    (hnone : (greedy_candidate_loop original_prediction oracle
      cf_example_events candidate_events most mid
      delta).most_shifting_event_id = none) :
    (greedy_candidate_loop original_prediction oracle cf_example_events
        candidate_events most mid delta).most_shifted_prediction = most ∧
    (greedy_candidate_loop original_prediction oracle cf_example_events
        candidate_events most mid delta).largest_prediction_delta = delta ∧
    mid = none := by
  induction candidate_events generalizing most mid delta with
  | nil =>
    rw [greedy_candidate_loop] at hnone ⊢
    exact ⟨rfl, rfl, hnone⟩
  | cons c rest ih =>
    rw [greedy_candidate_loop] at hnone ⊢
    simp only [] at hnone ⊢
    by_cases hr : (is_prediction_most_shifted original_prediction
        (oracle (cf_example_events ++ [c])) delta).1 = true
    · rw [if_pos hr] at hnone ⊢
      have := ih (oracle (cf_example_events ++ [c])) (some c)
        (is_prediction_most_shifted original_prediction
          (oracle (cf_example_events ++ [c])) delta).2 (by simpa using hnone)
      exact absurd this.2.2 (by simp)
    · rw [if_neg hr] at hnone ⊢
      have := ih most mid delta (by simpa using hnone)
      exact ⟨by simpa using this.1, by simpa using this.2.1, this.2.2⟩

theorem greedy_candidate_loop_pred_source (original_prediction : ℚ)
    (oracle : List ℤ → ℚ) (cf_example_events candidate_events : List ℤ)
    (most : ℚ) (mid : Option ℤ) (delta : ℚ) :
    (greedy_candidate_loop original_prediction oracle cf_example_events
        candidate_events most mid delta).most_shifted_prediction = most ∨
    ∃ l, (greedy_candidate_loop original_prediction oracle cf_example_events
        candidate_events most mid delta).most_shifted_prediction =
      oracle l := by
  induction candidate_events generalizing most mid delta with
  | nil => left; rw [greedy_candidate_loop]
  | cons c rest ih =>
    rw [greedy_candidate_loop]
    simp only []
    by_cases hr : (is_prediction_most_shifted original_prediction
        (oracle (cf_example_events ++ [c])) delta).1 = true
    · rw [if_pos hr]
      rcases ih (oracle (cf_example_events ++ [c])) (some c)
          (is_prediction_most_shifted original_prediction
            (oracle (cf_example_events ++ [c])) delta).2 with h | ⟨l, hl⟩
      · right
        exact ⟨cf_example_events ++ [c], by simpa using h⟩
      · right
        exact ⟨l, by simpa using hl⟩
    · rw [if_neg hr]
      rcases ih most mid delta with h | ⟨l, hl⟩
      · left; simpa using h
      · right; exact ⟨l, by simpa using hl⟩

/-- C9 (confirmed): the greedy explainer makes exactly one oracle call per
sampled candidate (so at most `sample_size` per iteration), and when its
loop returns it has either achieved a sign flip
(`achieves_counterfactual_explanation = true` and the committed prediction
has the opposite sign of the original, given a nonzero original and an
oracle that never returns exactly 0) or stopped at an iteration whose
candidate scan produced no event improving on the current largest delta
(`achieves_counterfactual_explanation = false`). -/
theorem greedy_call_count_and_termination :
    (∀ (original_prediction : ℚ) (oracle : List ℤ → ℚ)
        (cf_example_events candidate_events : List ℤ) (most : ℚ)
        (mid : Option ℤ) (delta : ℚ),
      (greedy_candidate_loop original_prediction oracle cf_example_events
        candidate_events most mid delta).call_log.length =
      candidate_events.length) ∧
    (∀ (subgraph : List ℤ) (base_event_id : ℤ) (excluded_events : List ℤ)
        (size : ℕ), 0 < size →
      (recent_edge_sampler_sample subgraph base_event_id excluded_events
        size).length ≤ size) ∧
    (∀ (original_prediction : ℚ) (oracle : List ℤ → ℚ) (subgraph : List ℤ)
        (explained_event_id : ℤ) (sample_size fuel : ℕ)
        (remaining_subgraph : List ℤ) (cf_example_prediction : ℚ)
        (cf_example_events : List ℤ) (cf_example_importances : List ℚ)
        (largest_prediction_delta : ℚ) (cf : CounterFactualExample)
        (final_delta : ℚ) (call_log : List (List ℤ)),
      original_prediction ≠ 0 → (∀ l, oracle l ≠ 0) →
      (cf_example_prediction = original_prediction ∨
        ∃ l, cf_example_prediction = oracle l) →
      greedy_explain_loop original_prediction oracle subgraph
        explained_event_id sample_size fuel remaining_subgraph
        cf_example_prediction cf_example_events cf_example_importances
        largest_prediction_delta = some (cf, final_delta, call_log) →
      (cf.achieves_counterfactual_explanation = true →
        cf.counterfactual_prediction * original_prediction < 0) ∧
      (cf.achieves_counterfactual_explanation = false →
        cf.counterfactual_prediction * original_prediction > 0 ∧
        (greedy_candidate_loop original_prediction oracle cf.event_ids
          (recent_edge_sampler_sample subgraph explained_event_id
            cf.event_ids sample_size) cf.counterfactual_prediction none
          final_delta).most_shifting_event_id = none)) := by
  refine ⟨greedy_candidate_loop_call_count, recent_edge_sampler_sample_length_le, ?_⟩
  intro original_prediction oracle subgraph explained_event_id sample_size
  intro fuel
  induction fuel with
  | zero =>
    intro rem cfpred events imps delta cf fdelta clog _ _ _ hres
    rw [greedy_explain_loop] at hres
    exact absurd hres (by simp)
  | succ n ih =>
    intro rem cfpred events imps delta cf fdelta clog horig hnz hsrc hres
    rw [greedy_explain_loop] at hres
    rw [if_neg (Nat.succ_ne_zero n)] at hres
    by_cases hflip : ¬(cfpred * original_prediction > 0)
    · rw [if_pos hflip] at hres
      have hcf : cf = ⟨original_prediction, cfpred, true, events, imps⟩ ∧
          fdelta = delta ∧ clog = [] := by
        refine ⟨?_, ?_, ?_⟩ <;> · have := hres; simp at this; tauto
      refine ⟨fun _ => ?_, fun hfalse => ?_⟩
      · rw [hcf.1]
        have hne : cfpred * original_prediction ≠ 0 := by
          rcases hsrc with rfl | ⟨l, rfl⟩
          · exact mul_ne_zero horig horig
          · exact mul_ne_zero (hnz l) horig
        push_neg at hflip
        rcases lt_or_eq_of_le hflip with hlt | heq
        · exact hlt
        · exact absurd heq hne
      · rw [hcf.1] at hfalse
        exact absurd hfalse (by simp)
    · rw [if_neg hflip] at hres
      simp only [Nat.add_sub_cancel] at hres
      set cands := recent_edge_sampler_sample subgraph explained_event_id
        events sample_size with hcands
      set it := greedy_candidate_loop original_prediction oracle events
        cands cfpred none delta with hit
      match hmid : it.most_shifting_event_id with
      | none =>
        rw [hmid] at hres
        simp only [] at hres
        have hcf : cf = ⟨original_prediction, cfpred, false, events, imps⟩ ∧
            fdelta = it.largest_prediction_delta ∧ clog = it.call_log := by
          refine ⟨?_, ?_, ?_⟩ <;> · have := hres; simp at this; tauto
        refine ⟨fun htrue => ?_, fun _ => ?_⟩
        · rw [hcf.1] at htrue
          exact absurd htrue (by simp)
        · have hfrozen := greedy_candidate_loop_none_frozen
            original_prediction oracle events cands cfpred none delta
            (by rw [← hit]; exact hmid)
          constructor
          · rw [hcf.1]
            simpa using not_not.mp hflip
          · rw [hcf.1, hcf.2.1]
            have hde : it.largest_prediction_delta = delta := by
              rw [hit]; exact hfrozen.2.1
            rw [hde]
            simpa using hmid
      | some msid =>
        rw [hmid] at hres
        simp only [] at hres
        match hrec : greedy_explain_loop original_prediction oracle subgraph
            explained_event_id sample_size n
            (rem.filter (fun e => !decide (e = msid)))
            it.most_shifted_prediction (events ++ [msid])
            (imps ++ [it.largest_prediction_delta])
            it.largest_prediction_delta with
        | none =>
          rw [hrec] at hres
          exact absurd hres (by simp)
        | some (cf2, fdelta2, clog2) =>
          rw [hrec] at hres
          have hsame : cf2 = cf ∧ fdelta2 = fdelta := by
            constructor <;> · have := hres; simp at this; tauto
          have hsrc2 : it.most_shifted_prediction = original_prediction ∨
              ∃ l, it.most_shifted_prediction = oracle l := by
            rcases greedy_candidate_loop_pred_source original_prediction
                oracle events cands cfpred none delta with h | ⟨l, hl⟩
            · rcases hsrc with h2 | ⟨l2, hl2⟩
              · left; rw [hit, h, h2]
              · right; exact ⟨l2, by rw [hit, h, hl2]⟩
            · right; exact ⟨l, by rw [hit, hl]⟩
          have := ih (rem.filter (fun e => !decide (e = msid)))
            it.most_shifted_prediction (events ++ [msid])
            (imps ++ [it.largest_prediction_delta])
            it.largest_prediction_delta cf2 fdelta2 clog2 horig hnz hsrc2 hrec
          rw [hsame.1, hsame.2] at this
          exact this

/-- C9 witness: a concrete greedy run (original prediction 1, constant
oracle -1, pool {2, 3}, sample size 1) flips at the first committed
candidate; the termination theorem applied there yields the sign flip. -/
theorem greedy_call_count_and_termination_witness :
    greedy_explain_loop 1 (fun _ => -1) [2, 3] 9 1 3 [2, 3] 1 [] [] 0 =
      some (⟨1, -1, true, [3], [2]⟩, 2, [[3]]) ∧
    ((⟨1, -1, true, [3], [2]⟩ :
      CounterFactualExample).counterfactual_prediction * 1 < 0) := by
  have heval : greedy_explain_loop 1 (fun _ => -1) [2, 3] 9 1 3 [2, 3] 1 [] [] 0 =
      some (⟨1, -1, true, [3], [2]⟩, 2, [[3]]) := by
    norm_num [greedy_explain_loop, greedy_candidate_loop,
      recent_edge_sampler_sample, filter_subgraph, collectFurtherEvents,
      is_prediction_most_shifted, pyAbs]
  refine ⟨heval, ?_⟩
  exact (greedy_call_count_and_termination.2.2 1 (fun _ => -1) [2, 3] 9 1 3
    [2, 3] 1 [] [] 0 ⟨1, -1, true, [3], [2]⟩ 2 [[3]] (by norm_num)
    (fun l => by norm_num) (Or.inl rfl) heval).1 rfl

/-! ### Arena model of the UCT/CoDy search tree
(`src/CFTGNNExplainer/explainer/mcts.py`)

Mutable `MCTSTreeNode` objects are modelled as records in a growable list
(the arena); object references become list indices, the mutable python
fields become record fields that are replaced functionally.  Children are
recovered as the indices whose `parent` field points at a node — python's
insertion-ordered `children` list equals index order because children are
only ever appended, in rank order, right after their parent.  The score's
`sqrt(2)*sqrt(ln(parent.n)/n)` exploration bonus is a float expression; it
is abstracted as a parameter `explore : ℕ → ℕ → ℚ` of the selection
functions (no claim depends on its value). -/

structure MCTSTreeNode where
  edge_id : ℤ
  parent : Option ℕ
  sampling_rank : ℕ
  original_prediction : ℚ
  prediction : Option ℚ
  is_counterfactual : Bool
  exploitation_score : ℚ
  number_of_selections : ℕ
  depth : ℕ
  expanded : Bool
  max_expansion_reached : Bool
deriving Repr, DecidableEq

/-- Placeholder record returned by out-of-range arena reads (python would
raise instead; well-formed runs never read out of range). -/
def dummyNode : MCTSTreeNode :=
  { edge_id := 0, parent := none, sampling_rank := 0,
    original_prediction := 0, prediction := none, is_counterfactual := false,
    exploitation_score := 0, number_of_selections := 1, depth := 0,
    expanded := false, max_expansion_reached := false }

/-- Search-wide mutable state of `CFTGNNExplainer`: the node arena, the
`known_states` memoization dictionary (modelled as an association list whose
most recent binding wins) and the ghost log of oracle calls, one canonical
exclusion-set hash per call. -/
structure MCTSState where
  nodes : List MCTSTreeNode
  known_states : List (List ℤ × ℚ)
  call_log : List (List ℤ)
deriving Repr, DecidableEq

/-- Dictionary lookup in the association-list model of `known_states`. -/
def known_lookup (known : List (List ℤ × ℚ)) (h : List ℤ) : Option ℚ :=
  match known with
  | [] => none
  | (k, v) :: rest => if k = h then some v else known_lookup rest h

/-- Dictionary assignment `known_states[h] = v` (prepended binding wins on
lookup, matching python's overwrite semantics). -/
def known_insert (known : List (List ℤ × ℚ)) (h : List ℤ) (v : ℚ) :
    List (List ℤ × ℚ) :=
  (h, v) :: known

/-- Indices of the ancestor chain walked by the python loops
`while node.parent is not None: ...; node = node.parent`, starting at the
node itself and excluding the root.  The `p < i` guard encodes that parents
precede children in the arena (always true for states built by the
operations below). -/
def ancestor_chain (nodes : List MCTSTreeNode) (i : ℕ) : List ℕ :=
  match (nodes.getD i dummyNode).parent with
  | none => []
  | some p => if _ : p < i then i :: ancestor_chain nodes p else [i]
termination_by i

/-- Exclusion set of a node: the `edge_id`s collected by the parent-chain
walks in `_run_node_expansion`, `_expand_node` and `hash`. -/
def ancestor_edge_ids (nodes : List MCTSTreeNode) (i : ℕ) : List ℤ :=
  (ancestor_chain nodes i).map (fun j => (nodes.getD j dummyNode).edge_id)

/-- Embedding of `MCTSTreeNode.hash` (`mcts.py` lines 178-185): the sorted
exclusion set (the python code joins it into a `-`-separated string, which
is injective on the positive event ids, so the sorted list itself serves as
the canonical hash). -/
def node_hash (nodes : List MCTSTreeNode) (i : ℕ) : List ℤ :=
  pySortedBy (fun e => e) (ancestor_edge_ids nodes i)

/-- Children of node `i` in python insertion order (= index order). -/
def children_idx (nodes : List MCTSTreeNode) (i : ℕ) : List ℕ :=
  (List.range nodes.length).filter
    (fun j => (nodes.getD j dummyNode).parent == some i)

/-- Embedding of `MCTSTreeNode.expansion_backpropagation` (`mcts.py` lines
140-156): on non-leaf nodes with a zero exploitation score, refresh the
score to the average of the expanded children's scores (`np.average` of an
empty list is NaN in python; that case is unreachable because the caller
has just expanded a child, and is modelled by rational division by zero,
which is 0); always increment the selection counter and recurse to the
parent.  `backprop_update` is the updated record of the visited node. -/
def backprop_update (nodes : List MCTSTreeNode) (i : ℕ) : MCTSTreeNode :=
  let node := nodes.getD i dummyNode
  let children := children_idx nodes i
  let node1 :=
    if children ≠ [] ∧ node.exploitation_score = 0 then
      let expanded_children :=
        children.filter (fun j => (nodes.getD j dummyNode).expanded)
      let avg := (expanded_children.map
          (fun j => (nodes.getD j dummyNode).exploitation_score)).sum /
        (expanded_children.length : ℚ)
      { node with exploitation_score := max 0 avg }
    else node
  { node1 with number_of_selections := node1.number_of_selections + 1 }

def expansion_backpropagation (nodes : List MCTSTreeNode) (i : ℕ) :
    List MCTSTreeNode :=
  let nodes1 := nodes.set i (backprop_update nodes i)
  match (nodes.getD i dummyNode).parent with
  | none => nodes1
  | some p => if _ : p < i then expansion_backpropagation nodes1 p else nodes1
termination_by i

/-- Embedding of `MCTSTreeNode.expand` (`mcts.py` lines 58-71): store the
prediction, recompute the exploitation score, mark the node expanded, flag
counterfactual nodes (opposite sign) as `max_expansion_reached`
(`expand_update` is the updated record), then run the expansion
backpropagation. -/
def expand_update (nodes : List MCTSTreeNode) (i : ℕ) (prediction : ℚ) :
    MCTSTreeNode :=
  let node := nodes.getD i dummyNode
  let node1 := { node with
    prediction := some prediction,
    exploitation_score := max 0
      (calculate_prediction_delta node.original_prediction prediction /
        pyAbs node.original_prediction),
    expanded := true }
  if node.original_prediction * prediction < 0 then
    { node1 with is_counterfactual := true, max_expansion_reached := true }
  else node1

def mcts_expand (nodes : List MCTSTreeNode) (i : ℕ) (prediction : ℚ) :
    List MCTSTreeNode :=
  expansion_backpropagation (nodes.set i (expand_update nodes i prediction)) i

/-- Record of a node after `node.max_expansion_reached = True`. -/
def mark_max_expanded_update (nodes : List MCTSTreeNode) (i : ℕ) :
    MCTSTreeNode :=
  { nodes.getD i dummyNode with max_expansion_reached := true }

/-- Embedding of `MCTSTreeNode._check_max_expanded` (`mcts.py` lines
73-84): mark the node maximally expanded and recurse to the parent once
every child is `max_expansion_reached` and unexpanded. -/
def check_max_expanded (nodes : List MCTSTreeNode) (i : ℕ) :
    List MCTSTreeNode :=
  let node := nodes.getD i dummyNode
  if node.max_expansion_reached then nodes
  else if (children_idx nodes i).all (fun j =>
      (nodes.getD j dummyNode).max_expansion_reached &&
        !(nodes.getD j dummyNode).expanded) then
    let nodes1 := nodes.set i (mark_max_expanded_update nodes i)
    match node.parent with
    | none => nodes1
    | some p => if _ : p < i then check_max_expanded nodes1 p else nodes1
  else nodes
termination_by i

/-- Embedding of `MCTSTreeNode._calculate_score` (`mcts.py` lines 92-97)
with the float exploration bonus abstracted as `explore parent.n self.n`. -/
def mcts_calculate_score (explore : ℕ → ℕ → ℚ) (nodes : List MCTSTreeNode)
    (j : ℕ) : ℚ :=
  let node := nodes.getD j dummyNode
  let parent_selections :=
    match node.parent with
    | some p => (nodes.getD p dummyNode).number_of_selections
    | none => 1
  node.exploitation_score + explore parent_selections node.number_of_selections

/-- Embedding of the `candidate_children` computation inside
`MCTSTreeNode.select_next_leaf` (`mcts.py` lines 112-121, and identically
`searching.py`): normally the children that are neither counterfactual nor
maximally expanded; when `max_depth == self.depth - 1` the not-yet-expanded
children instead.  The same set is obtained in the source before or after
the marking in the restricted branch because marking only changes
`max_expansion_reached`. -/
def candidate_children (nodes : List MCTSTreeNode) (i : ℕ) (max_depth : ℤ) :
    List ℕ :=
  if max_depth = ((nodes.getD i dummyNode).depth : ℤ) - 1 then
    (children_idx nodes i).filter (fun j => !(nodes.getD j dummyNode).expanded)
  else
    (children_idx nodes i).filter (fun j =>
      !((nodes.getD j dummyNode).is_counterfactual ||
        (nodes.getD j dummyNode).max_expansion_reached))

/-- Embedding of the best-scoring-child `for` loop (`mcts.py` lines
122-126): strict `>` against an initial best score of 0; the first child
reaching the maximum wins. -/
def best_child_loop (explore : ℕ → ℕ → ℚ) (nodes : List MCTSTreeNode) :
    List ℕ → Option ℕ → ℚ → Option ℕ
  | [], selected, _ => selected
  | j :: rest, selected, best_score =>
    let child_score := mcts_calculate_score explore nodes j
    if child_score > best_score then
      best_child_loop explore nodes rest (some j) child_score
    else
      best_child_loop explore nodes rest selected best_score

/-- Embedding of python's `min(nodes, key=sampling_rank)`: the first
element attaining the minimal rank. -/
def min_by_rank (nodes : List MCTSTreeNode) : List ℕ → Option ℕ
  | [] => none
  | j :: rest =>
    match min_by_rank nodes rest with
    | none => some j
    | some m =>
      if (nodes.getD m dummyNode).sampling_rank <
          (nodes.getD j dummyNode).sampling_rank then some m
      else some j

/-- Marking loop `for child in self.children: child.max_expansion_reached =
True` of the restricted branch (`mcts.py` lines 119-120). -/
def mark_children_max_expanded (nodes : List MCTSTreeNode) (cs : List ℕ) :
    List MCTSTreeNode :=
  cs.foldl (fun ns j => ns.set j (mark_max_expanded_update ns j)) nodes

/-- State after the marking step of the restricted branch of
`select_next_leaf` (`mcts.py` lines 116-120): when `max_depth ==
self.depth - 1`, every child is marked `max_expansion_reached`. -/
def select_marked (nodes : List MCTSTreeNode) (i : ℕ) (max_depth : ℤ) :
    List MCTSTreeNode :=
  if max_depth = ((nodes.getD i dummyNode).depth : ℤ) - 1 then
    mark_children_max_expanded nodes (children_idx nodes i)
  else nodes

mutual

/-- Embedding of the lower half of `MCTSTreeNode.select_next_leaf`
(`mcts.py` lines 112-138): compute the candidate children (marking all
children `max_expansion_reached` first in the restricted branch), pick the
best-scoring one, handle the no-candidate case (mark self, re-check the
parent, continue the selection there) and descend, preferring the
lowest-rank unexpanded child when the pick is unexpanded. -/
def select_body (explore : ℕ → ℕ → ℚ) (fuel : ℕ)
    (nodes : List MCTSTreeNode) (i : ℕ) (max_depth : ℤ) :
    Option (List MCTSTreeNode × ℕ) :=
  if fuel = 0 then none
  else
    let nodes1 := select_marked nodes i max_depth
    let cands := candidate_children nodes1 i max_depth
    match best_child_loop explore nodes1 cands none 0 with
    | none =>
      if (nodes1.getD i dummyNode).expanded = true ∧
          (nodes1.getD i dummyNode).parent ≠ none then
        match (nodes1.getD i dummyNode).parent with
        | some p =>
          let nodes2 := check_max_expanded
            (nodes1.set i (mark_max_expanded_update nodes1 i)) p
          select_next_leaf explore (fuel - 1) nodes2 p max_depth
        | none => some (nodes1, i)
      else some (nodes1, i)
    | some selected_child =>
      let selected_child2 :=
        if !(nodes1.getD selected_child dummyNode).expanded then
          match min_by_rank nodes1 ((children_idx nodes1 i).filter
              (fun j => !(nodes1.getD j dummyNode).expanded)) with
          | some m => m
          | none => selected_child
        else selected_child
      select_next_leaf explore (fuel - 1) nodes1 selected_child2 max_depth
termination_by 2 * fuel
decreasing_by all_goals omega

/-- Embedding of `MCTSTreeNode.select_next_leaf` (`mcts.py` lines 99-138):
leaves are returned as-is; a non-leaf node at `max_depth` is marked
maximally expanded and selection resumes at its parent (falling through to
the candidate scan only at the root); otherwise the candidate scan of
`select_body` runs.  Fuel models the stateful termination argument of the
python recursion. -/
def select_next_leaf (explore : ℕ → ℕ → ℚ) (fuel : ℕ)
    (nodes : List MCTSTreeNode) (i : ℕ) (max_depth : ℤ) :
    Option (List MCTSTreeNode × ℕ) :=
  if fuel = 0 then none
  else if children_idx nodes i = [] then some (nodes, i)
  else if ((nodes.getD i dummyNode).depth : ℤ) = max_depth then
    let nodes1 := nodes.set i (mark_max_expanded_update nodes i)
    match (nodes.getD i dummyNode).parent with
    | some p =>
      let nodes2 := check_max_expanded nodes1 p
      select_next_leaf explore (fuel - 1) nodes2 p max_depth
    | none => select_body explore fuel nodes1 i max_depth
  else select_body explore fuel nodes i max_depth
termination_by 2 * fuel + 1
decreasing_by all_goals omega

end

mutual

/-- Embedding of `CFTGNNExplainer._expand_node` (`mcts.py` lines 213-234):
expand the node from the given prediction, store the prediction in
`known_states` under the node's hash, stop at counterfactual nodes, and
otherwise create one child per ranked candidate (`ranker` models
`sampler.rank_subgraph(base, excluded)`, a python collaborator queried with
the exclusion set), immediately expanding from the cache any child whose
hash is already known — without any oracle call. -/
def expand_node (ranker : List ℤ → List ℤ) (fuel : ℕ) (s : MCTSState)
    (i : ℕ) (prediction : ℚ) : Option MCTSState :=
  if fuel = 0 then none
  else
    let nodes1 := mcts_expand s.nodes i prediction
    let s1 : MCTSState := { s with
      nodes := nodes1,
      known_states := known_insert s.known_states (node_hash nodes1 i)
        prediction }
    if (s1.nodes.getD i dummyNode).is_counterfactual then some s1
    else
      let edge_ids_to_exclude := ancestor_edge_ids s1.nodes i
      let ranked_edge_ids := ranker edge_ids_to_exclude
      expand_children_loop ranker (fuel - 1) s1 i ranked_edge_ids.enum
termination_by (fuel, 0)
decreasing_by omega

/-- Fresh child record created by `_expand_node` (`mcts.py` line 231,
`MCTSTreeNode.__init__` lines 41-56): unexpanded, rank-tagged, depth one
below the parent. -/
def make_child (nodes : List MCTSTreeNode) (i : ℕ) (rank : ℕ)
    (edge_id : ℤ) : MCTSTreeNode :=
  { edge_id := edge_id, parent := some i, sampling_rank := rank,
    original_prediction := (nodes.getD i dummyNode).original_prediction,
    prediction := none, is_counterfactual := false,
    exploitation_score := 0, number_of_selections := 1,
    depth := (nodes.getD i dummyNode).depth + 1, expanded := false,
    max_expansion_reached := false }

/-- Embedding of the child-creation loop of `_expand_node` (`mcts.py` lines
230-234): append one unexpanded child per `(rank, edge_id)` pair; children
whose exclusion-set hash is already in `known_states` are recursively
expanded from the cached prediction. -/
def expand_children_loop (ranker : List ℤ → List ℤ) (fuel : ℕ)
    (s : MCTSState) (i : ℕ) : List (ℕ × ℤ) → Option MCTSState
  | [] => some s
  | (rank, edge_id) :: rest =>
    let j := s.nodes.length
    let s1 : MCTSState := { s with
      nodes := s.nodes ++ [make_child s.nodes i rank edge_id] }
    match known_lookup s1.known_states (node_hash s1.nodes j) with
    | some v =>
      match expand_node ranker fuel s1 j v with
      | none => none
      | some s2 => expand_children_loop ranker fuel s2 i rest
    | none => expand_children_loop ranker fuel s1 i rest
termination_by pairs => (fuel, pairs.length + 1)
decreasing_by
  all_goals simp only [List.length_cons]
  all_goals exact Prod.Lex.right fuel (by omega)

end

/-- Embedding of `CFTGNNExplainer._run_node_expansion` (`mcts.py` lines
198-211): the one oracle call of an expansion.  The oracle (python
`calculate_subgraph_prediction`) is an external collaborator modelled as a
function of the excluded-event list `cf_example_events +
[candidate_event_id]`; the ghost `call_log` records the node's canonical
exclusion-set hash. -/
def run_node_expansion (oracle : List ℤ → ℚ) (ranker : List ℤ → List ℤ)
    (fuel : ℕ) (s : MCTSState) (i : ℕ) : Option MCTSState :=
  let edge_ids_to_exclude := ancestor_edge_ids s.nodes i
  let prediction := oracle
    (edge_ids_to_exclude ++ [(s.nodes.getD i dummyNode).edge_id])
  let s1 : MCTSState :=
    { s with call_log := s.call_log ++ [node_hash s.nodes i] }
  expand_node ranker fuel s1 i prediction

/-- Embedding of `find_best_non_counterfactual_example` (`mcts.py` lines
15-28) over the arena: a worklist scan popping from the end
(`nodes_to_visit.pop()`), comparing every node that has a prediction
against the running best (root predictions are set before the search, so
`getD 0` never hits the modelled `none`). -/
def find_best_loop (nodes : List MCTSTreeNode) (fuel : ℕ) (best : ℕ)
    (worklist : List ℕ) : Option ℕ :=
  if fuel = 0 then none
  else
    match worklist.getLast? with
    | none => some best
    | some explored_node =>
      let rest := worklist.dropLast
      let best1 :=
        if (nodes.getD explored_node dummyNode).prediction ≠ none then
          if calculate_prediction_delta
              (nodes.getD best dummyNode).original_prediction
              ((nodes.getD best dummyNode).prediction.getD 0) <
            calculate_prediction_delta
              (nodes.getD explored_node dummyNode).original_prediction
              ((nodes.getD explored_node dummyNode).prediction.getD 0) then
            explored_node
          else best
        else best
      find_best_loop nodes (fuel - 1) best1
        (rest ++ children_idx nodes explored_node)
termination_by fuel
decreasing_by omega

/-- Embedding of the inner `while node_to_expand is None` loop of
`CFTGNNExplainer.explain` (`mcts.py` lines 251-258): select a leaf; if its
exclusion set is already in `known_states`, expand it from the cache (no
oracle call) and select again. -/
def inner_select (explore : ℕ → ℕ → ℚ) (ranker : List ℤ → List ℤ)
    (fuel : ℕ) (s : MCTSState) (root : ℕ) (max_depth : ℤ) :
    Option (MCTSState × ℕ) :=
  if fuel = 0 then none
  else
    match select_next_leaf explore fuel s.nodes root max_depth with
    | none => none
    | some (nodes1, node_to_expand) =>
      let s1 : MCTSState := { s with nodes := nodes1 }
      match known_lookup s1.known_states (node_hash s1.nodes node_to_expand) with
      | some v =>
        match expand_node ranker fuel s1 node_to_expand v with
        | none => none
        | some s2 => inner_select explore ranker (fuel - 1) s2 root max_depth
      | none => some (s1, node_to_expand)
termination_by fuel
decreasing_by omega

/-- Best-counterfactual bookkeeping of `CFTGNNExplainer.explain`
(`mcts.py` lines 271-277): shallower depth wins, equal depth prefers the
higher exploitation score. -/
def update_best_cf (nodes : List MCTSTreeNode) (best : Option ℕ) (n : ℕ) :
    Option ℕ :=
  match best with
  | none => some n
  | some b =>
    if (nodes.getD b dummyNode).depth > (nodes.getD n dummyNode).depth then
      some n
    else if (nodes.getD b dummyNode).depth = (nodes.getD n dummyNode).depth ∧
        (nodes.getD b dummyNode).exploitation_score <
          (nodes.getD n dummyNode).exploitation_score then
      some n
    else some b

/-- Embedding of the main `while step <= self.max_steps` loop of
`CFTGNNExplainer.explain` (`mcts.py` lines 250-281), including the
depth-overrun guard that only backpropagates and retries without
incrementing `step`, the tree-exhausted break, and the post-expansion
counterfactual bookkeeping that clamps `max_depth`. -/
def mcts_explain_loop (explore : ℕ → ℕ → ℚ) (oracle : List ℤ → ℚ)
    (ranker : List ℤ → List ℤ) (max_steps : ℕ) (fuel : ℕ) (s : MCTSState)
    (root : ℕ) (step : ℕ) (max_depth : ℤ) (best : Option ℕ) :
    Option (Option ℕ × MCTSState) :=
  if fuel = 0 then none
  else if ¬(step ≤ max_steps) then some (best, s)
  else
    match inner_select explore ranker fuel s root max_depth with
    | none => none
    | some (s1, node_to_expand) =>
      if ((s1.nodes.getD node_to_expand dummyNode).depth : ℤ) > max_depth then
        let s2 : MCTSState :=
          { s1 with nodes := expansion_backpropagation s1.nodes node_to_expand }
        mcts_explain_loop explore oracle ranker max_steps (fuel - 1) s2 root
          step max_depth best
      else if node_to_expand = root ∧
          (s1.nodes.getD root dummyNode).expanded = true then
        some (best, s1)
      else
        match run_node_expansion oracle ranker fuel s1 node_to_expand with
        | none => none
        | some s2 =>
          if (s2.nodes.getD node_to_expand dummyNode).is_counterfactual then
            let best1 := update_best_cf s2.nodes best node_to_expand
            let max_depth1 : ℤ :=
              match best1 with
              | some b => ((s2.nodes.getD b dummyNode).depth : ℤ)
              | none => max_depth
            mcts_explain_loop explore oracle ranker max_steps (fuel - 1) s2
              root (step + 1) max_depth1 best1
          else
            mcts_explain_loop explore oracle ranker max_steps (fuel - 1) s2
              root (step + 1) max_depth best
termination_by fuel
decreasing_by all_goals omega

/-- Embedding of `MCTSTreeNode.to_cf_example` (`mcts.py` lines 158-176). -/
def mcts_to_cf_example (nodes : List MCTSTreeNode) (i : ℕ) :
    CounterFactualExample :=
  { original_prediction := (nodes.getD i dummyNode).original_prediction,
    counterfactual_prediction := (nodes.getD i dummyNode).prediction.getD 0,
    achieves_counterfactual_explanation :=
      (nodes.getD i dummyNode).is_counterfactual,
    event_ids := (ancestor_edge_ids nodes i).reverse,
    event_importances := ((ancestor_chain nodes i).map (fun j =>
      calculate_prediction_delta (nodes.getD i dummyNode).original_prediction
        ((nodes.getD j dummyNode).prediction.getD 0))).reverse }

/-- Embedding of `CFTGNNExplainer.explain` (`mcts.py` lines 236-287): build
the root (its prediction is set to the original prediction right away), run
the main loop starting from `max_depth = sys.maxsize`, fall back to the
best non-counterfactual node when no flip was found, clear `known_states`
and return the assembled example together with the final state. -/
def mcts_explain (explore : ℕ → ℕ → ℚ) (oracle : List ℤ → ℚ)
    (ranker : List ℤ → List ℤ) (explained_event_id : ℤ)
    (original_prediction : ℚ) (max_steps : ℕ) (fuel : ℕ) :
    Option (CounterFactualExample × MCTSState) :=
  let root_node : MCTSTreeNode :=
    { edge_id := explained_event_id, parent := none, sampling_rank := 0,
      original_prediction := original_prediction,
      prediction := some original_prediction, is_counterfactual := false,
      exploitation_score := 0, number_of_selections := 1, depth := 0,
      expanded := false, max_expansion_reached := false }
  let s0 : MCTSState :=
    { nodes := [root_node], known_states := [], call_log := [] }
  match mcts_explain_loop explore oracle ranker max_steps fuel s0 0 0
      (9223372036854775807 : ℤ) none with
  | none => none
  | some (best, s) =>
    match (match best with
      | some b => some b
      | none => find_best_loop s.nodes fuel 0 (children_idx s.nodes 0)) with
    | none => none
    | some final =>
      some (mcts_to_cf_example s.nodes final,
        { s with known_states := [] })

theorem getD_set_self (l : List MCTSTreeNode) (i : ℕ) (v : MCTSTreeNode)
    (h : i < l.length) : (l.set i v).getD i dummyNode = v := by
  simp [List.getD_eq_getElem?_getD, List.getElem?_set_self, h]

theorem getD_set_ne (l : List MCTSTreeNode) (i j : ℕ) (v : MCTSTreeNode)
    (h : i ≠ j) : (l.set i v).getD j dummyNode = l.getD j dummyNode := by
  simp [List.getD_eq_getElem?_getD, List.getElem?_set_ne h]

theorem children_idx_congr (a b : List MCTSTreeNode)
    (hlen : b.length = a.length)
    (hp : ∀ j, (b.getD j dummyNode).parent = (a.getD j dummyNode).parent)
    (i : ℕ) : children_idx b i = children_idx a i := by
  unfold children_idx
  rw [hlen]
  apply List.filter_congr
  intro j _
  rw [hp j]

theorem backprop_update_leaf (nodes : List MCTSTreeNode) (i : ℕ)
    (hleaf : children_idx nodes i = []) :
    backprop_update nodes i =
      { nodes.getD i dummyNode with
        number_of_selections :=
          (nodes.getD i dummyNode).number_of_selections + 1 } := by
  unfold backprop_update
  simp [hleaf]

theorem expansion_backpropagation_length (nodes : List MCTSTreeNode)
    (i : ℕ) :
    (expansion_backpropagation nodes i).length = nodes.length := by
  induction i using Nat.strong_induction_on generalizing nodes with
  | _ i ih =>
    rw [expansion_backpropagation]
    rcases hp : (nodes.getD i dummyNode).parent with _ | p
    · simp only [hp, List.length_set]
    · simp only [hp]
      by_cases hpi : p < i
      · rw [dif_pos hpi, ih p hpi]
        simp [List.length_set]
      · rw [dif_neg hpi]
        simp [List.length_set]

theorem expansion_backpropagation_getD_gt (nodes : List MCTSTreeNode)
    (i j : ℕ) (hij : i < j) :
    (expansion_backpropagation nodes i).getD j dummyNode =
      nodes.getD j dummyNode := by
  induction i using Nat.strong_induction_on generalizing nodes with
  | _ i ih =>
    rw [expansion_backpropagation]
    rcases hp : (nodes.getD i dummyNode).parent with _ | p
    · simp only [hp]
      exact getD_set_ne _ _ _ _ (Nat.ne_of_lt hij)
    · simp only [hp]
      by_cases hpi : p < i
      · rw [dif_pos hpi, ih p hpi _ (Nat.lt_trans hpi hij)]
        exact getD_set_ne _ _ _ _ (Nat.ne_of_lt hij)
      · rw [dif_neg hpi]
        exact getD_set_ne _ _ _ _ (Nat.ne_of_lt hij)

theorem expansion_backpropagation_getD_self_leaf (nodes : List MCTSTreeNode)
    (i : ℕ) (hi : i < nodes.length) (hleaf : children_idx nodes i = []) :
    (expansion_backpropagation nodes i).getD i dummyNode =
      { nodes.getD i dummyNode with
        number_of_selections :=
          (nodes.getD i dummyNode).number_of_selections + 1 } := by
  rw [expansion_backpropagation]
  rcases hp : (nodes.getD i dummyNode).parent with _ | p
  · simp only [hp]
    rw [getD_set_self _ _ _ hi, backprop_update_leaf _ _ hleaf]
    rw [List.getD_eq_getElem?_getD] at hp
    simp [hp]
  · simp only [hp]
    by_cases hpi : p < i
    · rw [dif_pos hpi, expansion_backpropagation_getD_gt _ p i hpi,
        getD_set_self _ _ _ hi, backprop_update_leaf _ _ hleaf]
      rw [List.getD_eq_getElem?_getD] at hp
      simp [hp]
    · rw [dif_neg hpi, getD_set_self _ _ _ hi, backprop_update_leaf _ _ hleaf]
      rw [List.getD_eq_getElem?_getD] at hp
      simp [hp]

theorem expand_update_parent (nodes : List MCTSTreeNode) (i : ℕ)
    (prediction : ℚ) :
    (expand_update nodes i prediction).parent =
      (nodes.getD i dummyNode).parent := by
  unfold expand_update
  simp only []
  split <;> rfl

theorem expand_update_prediction (nodes : List MCTSTreeNode) (i : ℕ)
    (prediction : ℚ) :
    (expand_update nodes i prediction).prediction = some prediction := by
  unfold expand_update
  simp only []
  split <;> rfl

theorem expand_update_score (nodes : List MCTSTreeNode) (i : ℕ)
    (prediction : ℚ) :
    (expand_update nodes i prediction).exploitation_score =
      max 0 (calculate_prediction_delta
        (nodes.getD i dummyNode).original_prediction prediction /
        pyAbs (nodes.getD i dummyNode).original_prediction) := by
  unfold expand_update
  simp only []
  split <;> rfl

theorem expand_update_expanded (nodes : List MCTSTreeNode) (i : ℕ)
    (prediction : ℚ) :
    (expand_update nodes i prediction).expanded = true := by
  unfold expand_update
  simp only []
  split <;> rfl

theorem expand_update_is_cf_pos (nodes : List MCTSTreeNode) (i : ℕ)
    (prediction : ℚ)
    (h : (nodes.getD i dummyNode).original_prediction * prediction < 0) :
    (expand_update nodes i prediction).is_counterfactual = true ∧
    (expand_update nodes i prediction).max_expansion_reached = true := by
  unfold expand_update
  simp only []
  rw [if_pos h]
  exact ⟨rfl, rfl⟩

theorem expand_update_is_cf_neg (nodes : List MCTSTreeNode) (i : ℕ)
    (prediction : ℚ)
    (h : ¬((nodes.getD i dummyNode).original_prediction * prediction < 0)) :
    (expand_update nodes i prediction).is_counterfactual =
      (nodes.getD i dummyNode).is_counterfactual := by
  unfold expand_update
  simp only []
  rw [if_neg h]

/-! ### Claim C4: the node state after `expand` -/

/-- C4 (confirmed): `expand(prediction)` on a leaf node that is not yet
counterfactual stores the prediction, sets the exploitation score to
`max(0, delta(original, prediction) / abs(original))`, marks the node
expanded, sets `is_counterfactual` exactly when `original * prediction < 0`
and, in that case, also marks the node `max_expansion_reached` (the flip
node is terminal). -/
theorem mcts_expand_node_state (nodes : List MCTSTreeNode) (i : ℕ)
    (prediction : ℚ) (hi : i < nodes.length)
    (hleaf : children_idx nodes i = [])
    (hcf0 : (nodes.getD i dummyNode).is_counterfactual = false) :
    ((mcts_expand nodes i prediction).getD i dummyNode).prediction =
      some prediction ∧
    ((mcts_expand nodes i prediction).getD i dummyNode).exploitation_score =
      max 0 (calculate_prediction_delta
        (nodes.getD i dummyNode).original_prediction prediction /
        pyAbs (nodes.getD i dummyNode).original_prediction) ∧
    ((mcts_expand nodes i prediction).getD i dummyNode).expanded = true ∧
    (((mcts_expand nodes i prediction).getD i dummyNode).is_counterfactual =
        true ↔
      (nodes.getD i dummyNode).original_prediction * prediction < 0) ∧
    (((mcts_expand nodes i prediction).getD i dummyNode).is_counterfactual =
        true →
      ((mcts_expand nodes i prediction).getD i dummyNode).max_expansion_reached
        = true) := by
  have hi' : i < (nodes.set i (expand_update nodes i prediction)).length := by
    simpa [List.length_set] using hi
  have hleaf' :
      children_idx (nodes.set i (expand_update nodes i prediction)) i = [] := by
    rw [children_idx_congr nodes
      (nodes.set i (expand_update nodes i prediction)) (by simp) ?hpar]
    · exact hleaf
    case hpar =>
      intro j
      by_cases hji : i = j
      · subst hji
        rw [getD_set_self _ _ _ hi, expand_update_parent]
      · rw [getD_set_ne _ _ _ _ hji]
  have hgd : (mcts_expand nodes i prediction).getD i dummyNode =
      { expand_update nodes i prediction with
        number_of_selections :=
          (expand_update nodes i prediction).number_of_selections + 1 } := by
    rw [mcts_expand, expansion_backpropagation_getD_self_leaf _ _ hi' hleaf',
      getD_set_self _ _ _ hi]
  rw [hgd]
  refine ⟨expand_update_prediction nodes i prediction,
    expand_update_score nodes i prediction,
    expand_update_expanded nodes i prediction, ?_, ?_⟩
  · by_cases hlt :
      (nodes.getD i dummyNode).original_prediction * prediction < 0
    · exact iff_of_true (expand_update_is_cf_pos nodes i prediction hlt).1 hlt
    · apply iff_of_false
      · intro hc
        have hc' : (expand_update nodes i prediction).is_counterfactual =
            true := hc
        rw [expand_update_is_cf_neg nodes i prediction hlt, hcf0] at hc'
        exact absurd hc' (by simp)
      · exact hlt
  · intro hcf
    by_cases hlt :
      (nodes.getD i dummyNode).original_prediction * prediction < 0
    · exact (expand_update_is_cf_pos nodes i prediction hlt).2
    · have hc' : (expand_update nodes i prediction).is_counterfactual =
          true := hcf
      rw [expand_update_is_cf_neg nodes i prediction hlt, hcf0] at hc'
      exact absurd hc' (by simp)

/-- Concrete two-node arena for the C4 witness: an expanded root and one
fresh leaf child. -/
def expandWitnessNodes : List MCTSTreeNode :=
  [{ dummyNode with
      edge_id := 9,
      prediction := some 1,
      original_prediction := 1,
      expanded := true },
   { dummyNode with
      edge_id := 4,
      parent := some 0,
      original_prediction := 1,
      depth := 1 }]

/-- C4 witness: expanding the fresh leaf child (index 1, original
prediction 1) with prediction -1/2 stores the prediction and flips the
node. -/
theorem mcts_expand_node_state_witness :
    1 < expandWitnessNodes.length ∧
    ((mcts_expand expandWitnessNodes 1 (-1/2)).getD 1 dummyNode).prediction =
      some (-1/2) ∧
    ((mcts_expand expandWitnessNodes 1 (-1/2)).getD 1
      dummyNode).is_counterfactual = true := by
  have h := mcts_expand_node_state expandWitnessNodes 1 (-1/2)
    (by simp [expandWitnessNodes]) (by decide) (by decide)
  refine ⟨by simp [expandWitnessNodes], h.1, h.2.2.2.1.mpr ?_⟩
  norm_num [expandWitnessNodes, dummyNode]

/-! ### Claim C2: the depth-bound restriction in `select_next_leaf` -/

/-- Concrete arena for C2: an expanded root (depth 0) with an expanded
non-leaf child A (index 1), A's unexpanded leaf child (index 2) and an
unexpanded leaf child B of the root (index 3). -/
def depthBoundNodes : List MCTSTreeNode :=
  [{ dummyNode with
      edge_id := 9,
      prediction := some 1,
      original_prediction := 1,
      expanded := true },
   { dummyNode with
      edge_id := 4,
      parent := some 0,
      original_prediction := 1,
      prediction := some (1/2),
      exploitation_score := 1,
      expanded := true,
      depth := 1 },
   { dummyNode with
      edge_id := 5,
      parent := some 1,
      original_prediction := 1,
      depth := 2 },
   { dummyNode with
      edge_id := 6,
      parent := some 0,
      original_prediction := 1,
      sampling_rank := 1,
      depth := 1 }]

/-- C2 (code bug): at the root with `max_depth = depth + 1 = 1` (only
direct children can still satisfy the depth bound) the candidate set
computed by `select_next_leaf` is NOT restricted to the not-yet-expanded
children: it contains the expanded child 1, because the restriction branch
tests `max_depth == self.depth - 1` (which contradicts the code's own
comment "if max depth is reached in the next level" and is unreachable
during a descent from the root) instead of `self.depth + 1`.  The last
conjunct shows the set the claim requires. -/
theorem candidate_children_not_restricted_at_depth_bound :
    candidate_children depthBoundNodes 0
        (((depthBoundNodes.getD 0 dummyNode).depth : ℤ) + 1) = [1, 3] ∧
    (depthBoundNodes.getD 1 dummyNode).expanded = true ∧
    (((depthBoundNodes.getD 0 dummyNode).depth : ℤ) + 1 ≠
      ((depthBoundNodes.getD 0 dummyNode).depth : ℤ) - 1) ∧
    (children_idx depthBoundNodes 0).filter
      (fun j => !(depthBoundNodes.getD j dummyNode).expanded) = [3] := by
  refine ⟨?_, by decide, by decide, by decide⟩
  rw [candidate_children, if_neg (by decide)]
  decide

/-! ### Invariant machinery for claim C3

`ParentEdgeStable` captures that an operation never rewires the tree: node
count, parent links and edge ids are untouched, so exclusion sets and
hashes of existing nodes are stable.  `ExpandedStable` additionally
captures that the `expanded` flags are untouched (true of the selection
machinery, which only sets `max_expansion_reached`). -/

def ParentEdgeStable (a b : List MCTSTreeNode) : Prop :=
  b.length = a.length ∧
  ∀ j, (b.getD j dummyNode).parent = (a.getD j dummyNode).parent ∧
    (b.getD j dummyNode).edge_id = (a.getD j dummyNode).edge_id

def ExpandedStable (a b : List MCTSTreeNode) : Prop :=
  ∀ j, (b.getD j dummyNode).expanded = (a.getD j dummyNode).expanded

theorem pes_refl (a : List MCTSTreeNode) : ParentEdgeStable a a :=
  ⟨rfl, fun _ => ⟨rfl, rfl⟩⟩

theorem pes_trans {a b c : List MCTSTreeNode} (h₁ : ParentEdgeStable a b)
    (h₂ : ParentEdgeStable b c) : ParentEdgeStable a c :=
  ⟨h₂.1.trans h₁.1, fun j =>
    ⟨(h₂.2 j).1.trans (h₁.2 j).1, (h₂.2 j).2.trans (h₁.2 j).2⟩⟩

theorem es_refl (a : List MCTSTreeNode) : ExpandedStable a a := fun _ => rfl

theorem es_trans {a b c : List MCTSTreeNode} (h₁ : ExpandedStable a b)
    (h₂ : ExpandedStable b c) : ExpandedStable a c :=
  fun j => (h₂ j).trans (h₁ j)

theorem getD_set_cases (l : List MCTSTreeNode) (i j : ℕ) (v : MCTSTreeNode) :
    (l.set i v).getD j dummyNode = v ∨
    (l.set i v).getD j dummyNode = l.getD j dummyNode := by
  by_cases hij : i = j
  · subst hij
    by_cases hi : i < l.length
    · left; exact getD_set_self l i v hi
    · right; rw [List.set_eq_of_length_le (Nat.le_of_not_lt hi)]
  · right; exact getD_set_ne l i j v hij

theorem pes_set (l : List MCTSTreeNode) (i : ℕ) (v : MCTSTreeNode)
    (hpar : v.parent = (l.getD i dummyNode).parent)
    (hedge : v.edge_id = (l.getD i dummyNode).edge_id) :
    ParentEdgeStable l (l.set i v) := by
  refine ⟨List.length_set l i v, fun j => ?_⟩
  rcases getD_set_cases l i j v with h | h
  · by_cases hij : i = j
    · subst hij
      rw [h, hpar, hedge]
      exact ⟨rfl, rfl⟩
    · rw [getD_set_ne l i j v hij]
      exact ⟨rfl, rfl⟩
  · rw [h]
    exact ⟨rfl, rfl⟩

theorem es_set (l : List MCTSTreeNode) (i : ℕ) (v : MCTSTreeNode)
    (hexp : v.expanded = (l.getD i dummyNode).expanded) :
    ExpandedStable l (l.set i v) := by
  intro j
  rcases getD_set_cases l i j v with h | h
  · by_cases hij : i = j
    · subst hij
      rw [h, hexp]
    · rw [getD_set_ne l i j v hij]
  · rw [h]

theorem getD_append_lt (l : List MCTSTreeNode) (v : MCTSTreeNode) (j : ℕ)
    (h : j < l.length) :
    (l ++ [v]).getD j dummyNode = l.getD j dummyNode := by
  simp [List.getD_eq_getElem?_getD, List.getElem?_append_left h]

theorem ancestor_chain_congr_pes (a b : List MCTSTreeNode)
    (hs : ParentEdgeStable a b) (i : ℕ) :
    ancestor_chain b i = ancestor_chain a i := by
  induction i using Nat.strong_induction_on with
  | _ i ih =>
    rw [ancestor_chain, ancestor_chain, (hs.2 i).1]
    rcases hp : (a.getD i dummyNode).parent with _ | p
    · rfl
    · simp only []
      by_cases hpi : p < i
      · rw [dif_pos hpi, dif_pos hpi, ih p hpi]
      · rw [dif_neg hpi, dif_neg hpi]

theorem node_hash_congr_pes (a b : List MCTSTreeNode)
    (hs : ParentEdgeStable a b) (i : ℕ) : node_hash b i = node_hash a i := by
  unfold node_hash ancestor_edge_ids
  rw [ancestor_chain_congr_pes a b hs i]
  congr 1
  exact List.map_congr_left (fun j _ => (hs.2 j).2)

theorem ancestor_chain_mem_le (nodes : List MCTSTreeNode) (i : ℕ) :
    ∀ j ∈ ancestor_chain nodes i, j ≤ i := by
  induction i using Nat.strong_induction_on with
  | _ i ih =>
    intro j hj
    rw [ancestor_chain] at hj
    rcases hp : (nodes.getD i dummyNode).parent with _ | p
    · rw [hp] at hj
      exact absurd hj (List.not_mem_nil j)
    · rw [hp] at hj
      simp only [] at hj
      by_cases hpi : p < i
      · rw [dif_pos hpi] at hj
        rcases List.mem_cons.mp hj with rfl | hj'
        · exact le_refl j
        · exact le_trans (ih p hpi j hj') (Nat.le_of_lt hpi)
      · rw [dif_neg hpi] at hj
        rcases List.mem_cons.mp hj with rfl | hj'
        · exact le_refl j
        · exact absurd hj' (List.not_mem_nil j)

theorem ancestor_chain_append (l : List MCTSTreeNode) (v : MCTSTreeNode)
    (i : ℕ) (hi : i < l.length) :
    ancestor_chain (l ++ [v]) i = ancestor_chain l i := by
  induction i using Nat.strong_induction_on with
  | _ i ih =>
    rw [ancestor_chain, ancestor_chain, getD_append_lt l v i hi]
    rcases hp : (l.getD i dummyNode).parent with _ | p
    · rfl
    · simp only []
      by_cases hpi : p < i
      · rw [dif_pos hpi, dif_pos hpi, ih p hpi (Nat.lt_trans hpi hi)]
      · rw [dif_neg hpi, dif_neg hpi]

theorem node_hash_append (l : List MCTSTreeNode) (v : MCTSTreeNode) (i : ℕ)
    (hi : i < l.length) : node_hash (l ++ [v]) i = node_hash l i := by
  unfold node_hash ancestor_edge_ids
  rw [ancestor_chain_append l v i hi]
  congr 1
  refine List.map_congr_left (fun j hj => ?_)
  exact congrArg MCTSTreeNode.edge_id
    (getD_append_lt l v j (lt_of_le_of_lt (ancestor_chain_mem_le l i j hj) hi))

theorem backprop_update_parent_edge_exp (nodes : List MCTSTreeNode) (i : ℕ) :
    (backprop_update nodes i).parent = (nodes.getD i dummyNode).parent ∧
    (backprop_update nodes i).edge_id = (nodes.getD i dummyNode).edge_id ∧
    (backprop_update nodes i).expanded = (nodes.getD i dummyNode).expanded := by
  unfold backprop_update
  simp only []
  split <;> exact ⟨rfl, rfl, rfl⟩

theorem expansion_backpropagation_stable (nodes : List MCTSTreeNode)
    (i : ℕ) :
    ParentEdgeStable nodes (expansion_backpropagation nodes i) ∧
    ExpandedStable nodes (expansion_backpropagation nodes i) := by
  induction i using Nat.strong_induction_on generalizing nodes with
  | _ i ih =>
    rw [expansion_backpropagation]
    have hset : ParentEdgeStable nodes
        (nodes.set i (backprop_update nodes i)) ∧
        ExpandedStable nodes (nodes.set i (backprop_update nodes i)) :=
      ⟨pes_set _ _ _ (backprop_update_parent_edge_exp nodes i).1
          (backprop_update_parent_edge_exp nodes i).2.1,
        es_set _ _ _ (backprop_update_parent_edge_exp nodes i).2.2⟩
    rcases hp : (nodes.getD i dummyNode).parent with _ | p
    · exact hset
    · simp only []
      by_cases hpi : p < i
      · rw [dif_pos hpi]
        have hrec := ih p hpi (nodes.set i (backprop_update nodes i))
        exact ⟨pes_trans hset.1 hrec.1, es_trans hset.2 hrec.2⟩
      · rw [dif_neg hpi]
        exact hset

theorem check_max_expanded_stable (nodes : List MCTSTreeNode) (i : ℕ) :
    ParentEdgeStable nodes (check_max_expanded nodes i) ∧
    ExpandedStable nodes (check_max_expanded nodes i) := by
  induction i using Nat.strong_induction_on generalizing nodes with
  | _ i ih =>
    rw [check_max_expanded]
    by_cases hmax : (nodes.getD i dummyNode).max_expansion_reached = true
    · rw [if_pos hmax]
      exact ⟨pes_refl nodes, es_refl nodes⟩
    · rw [if_neg hmax]
      by_cases hall : ((children_idx nodes i).all (fun j =>
          (nodes.getD j dummyNode).max_expansion_reached &&
            !(nodes.getD j dummyNode).expanded)) = true
      · rw [if_pos hall]
        have hset : ParentEdgeStable nodes
            (nodes.set i (mark_max_expanded_update nodes i)) ∧
            ExpandedStable nodes
            (nodes.set i (mark_max_expanded_update nodes i)) :=
          ⟨pes_set _ _ _ rfl rfl, es_set _ _ _ rfl⟩
        rcases hp : (nodes.getD i dummyNode).parent with _ | p
        · exact hset
        · simp only []
          by_cases hpi : p < i
          · rw [dif_pos hpi]
            have hrec := ih p hpi (nodes.set i (mark_max_expanded_update nodes i))
            exact ⟨pes_trans hset.1 hrec.1, es_trans hset.2 hrec.2⟩
          · rw [dif_neg hpi]
            exact hset
      · rw [if_neg hall]
        exact ⟨pes_refl nodes, es_refl nodes⟩

theorem mark_children_stable (nodes : List MCTSTreeNode) (cs : List ℕ) :
    ParentEdgeStable nodes (mark_children_max_expanded nodes cs) ∧
    ExpandedStable nodes (mark_children_max_expanded nodes cs) := by
  induction cs generalizing nodes with
  | nil => exact ⟨pes_refl nodes, es_refl nodes⟩
  | cons c rest ih =>
    rw [mark_children_max_expanded] at *
    simp only [List.foldl_cons]
    have hset : ParentEdgeStable nodes
        (nodes.set c (mark_max_expanded_update nodes c)) ∧
        ExpandedStable nodes
        (nodes.set c (mark_max_expanded_update nodes c)) :=
      ⟨pes_set _ _ _ rfl rfl, es_set _ _ _ rfl⟩
    have hrec := ih (nodes.set c (mark_max_expanded_update nodes c))
    exact ⟨pes_trans hset.1 hrec.1, es_trans hset.2 hrec.2⟩

theorem select_marked_stable (nodes : List MCTSTreeNode) (i : ℕ)
    (max_depth : ℤ) :
    ParentEdgeStable nodes (select_marked nodes i max_depth) ∧
    ExpandedStable nodes (select_marked nodes i max_depth) := by
  unfold select_marked
  split
  · exact mark_children_stable nodes (children_idx nodes i)
  · exact ⟨pes_refl nodes, es_refl nodes⟩

theorem children_idx_lt (nodes : List MCTSTreeNode) (i : ℕ) :
    ∀ j ∈ children_idx nodes i, j < nodes.length := by
  intro j hj
  unfold children_idx at hj
  rw [List.mem_filter] at hj
  exact List.mem_range.mp hj.1

theorem best_child_loop_mem (explore : ℕ → ℕ → ℚ)
    (nodes : List MCTSTreeNode) (cands : List ℕ) (sel : Option ℕ)
    (best : ℚ) (c : ℕ)
    (h : best_child_loop explore nodes cands sel best = some c) :
    c ∈ cands ∨ sel = some c := by
  induction cands generalizing sel best with
  | nil =>
    rw [best_child_loop] at h
    exact Or.inr h
  | cons a rest ih =>
    rw [best_child_loop] at h
    by_cases hgt : mcts_calculate_score explore nodes a > best
    · rw [if_pos hgt] at h
      rcases ih _ _ h with hm | hs
      · exact Or.inl (List.mem_cons_of_mem a hm)
      · exact Or.inl (by simp at hs; subst hs; exact List.mem_cons_self a rest)
    · rw [if_neg hgt] at h
      rcases ih _ _ h with hm | hs
      · exact Or.inl (List.mem_cons_of_mem a hm)
      · exact Or.inr hs

theorem min_by_rank_mem (nodes : List MCTSTreeNode) (l : List ℕ) (m : ℕ)
    (h : min_by_rank nodes l = some m) : m ∈ l := by
  induction l generalizing m with
  | nil => rw [min_by_rank] at h; exact absurd h (by simp)
  | cons a rest ih =>
    rw [min_by_rank] at h
    match hrec : min_by_rank nodes rest with
    | none =>
      rw [hrec] at h
      simp at h
      rw [← h]
      exact List.mem_cons_self a rest
    | some m' =>
      rw [hrec] at h
      simp only [] at h
      by_cases hlt : (nodes.getD m' dummyNode).sampling_rank <
          (nodes.getD a dummyNode).sampling_rank
      · rw [if_pos hlt] at h
        simp at h
        rw [← h]
        exact List.mem_cons_of_mem a (ih m' hrec)
      · rw [if_neg hlt] at h
        simp at h
        rw [← h]
        exact List.mem_cons_self a rest

theorem candidate_children_lt (nodes : List MCTSTreeNode) (i : ℕ)
    (max_depth : ℤ) :
    ∀ j ∈ candidate_children nodes i max_depth, j < nodes.length := by
  intro j hj
  unfold candidate_children at hj
  split at hj <;>
    exact children_idx_lt nodes i j (List.mem_filter.mp hj).1

theorem wfparent_pes (a b : List MCTSTreeNode) (hpes : ParentEdgeStable a b)
    (hwf : ∀ j, j < a.length → ∀ p,
      (a.getD j dummyNode).parent = some p → p < j) :
    ∀ j, j < b.length → ∀ p, (b.getD j dummyNode).parent = some p → p < j :=
  fun j hj p hp =>
    hwf j (hpes.1 ▸ hj) p ((hpes.2 j).1 ▸ hp)

/-- Arena well-formedness: parents precede their children. -/
def WFParent (nodes : List MCTSTreeNode) : Prop :=
  ∀ j, j < nodes.length → ∀ p, (nodes.getD j dummyNode).parent = some p → p < j

theorem WFParent_pes (a b : List MCTSTreeNode) (hpes : ParentEdgeStable a b)
    (hwf : WFParent a) : WFParent b :=
  wfparent_pes a b hpes hwf

theorem select_stable_bound (explore : ℕ → ℕ → ℚ) : ∀ fuel : ℕ,
    (∀ nodes i max_depth res,
      select_body explore fuel nodes i max_depth = some res →
      (ParentEdgeStable nodes res.1 ∧ ExpandedStable nodes res.1) ∧
      (i < nodes.length → WFParent nodes → res.2 < nodes.length)) ∧
    (∀ nodes i max_depth res,
      select_next_leaf explore fuel nodes i max_depth = some res →
      (ParentEdgeStable nodes res.1 ∧ ExpandedStable nodes res.1) ∧
      (i < nodes.length → WFParent nodes → res.2 < nodes.length)) := by
  intro fuel
  induction fuel using Nat.strong_induction_on with
  | _ fuel ih =>
    have hbody : ∀ nodes i max_depth res,
        select_body explore fuel nodes i max_depth = some res →
        (ParentEdgeStable nodes res.1 ∧ ExpandedStable nodes res.1) ∧
        (i < nodes.length → WFParent nodes → res.2 < nodes.length) := by
      intro nodes i max_depth res hres
      rw [select_body] at hres
      by_cases hfuel : fuel = 0
      · rw [if_pos hfuel] at hres
        exact absurd hres (by simp)
      rw [if_neg hfuel] at hres
      simp only [] at hres
      have hstab1 := select_marked_stable nodes i max_depth
      have hlen1 : (select_marked nodes i max_depth).length = nodes.length :=
        hstab1.1.1
      match hbc : best_child_loop explore (select_marked nodes i max_depth)
          (candidate_children (select_marked nodes i max_depth) i max_depth)
          none 0 with
      | none =>
        rw [hbc] at hres
        simp only [] at hres
        by_cases hcond :
            (((select_marked nodes i max_depth).getD i dummyNode).expanded =
              true) ∧
            ((select_marked nodes i max_depth).getD i dummyNode).parent ≠ none
        · rw [if_pos hcond] at hres
          match hp : ((select_marked nodes i max_depth).getD i
              dummyNode).parent with
          | none => exact absurd hp hcond.2
          | some p =>
            rw [hp] at hres
            simp only [] at hres
            have hset : ParentEdgeStable (select_marked nodes i max_depth)
                ((select_marked nodes i max_depth).set i
                  (mark_max_expanded_update
                    (select_marked nodes i max_depth) i)) ∧
                ExpandedStable (select_marked nodes i max_depth)
                ((select_marked nodes i max_depth).set i
                  (mark_max_expanded_update
                    (select_marked nodes i max_depth) i)) :=
              ⟨pes_set _ _ _ rfl rfl, es_set _ _ _ rfl⟩
            have hchk := check_max_expanded_stable
              ((select_marked nodes i max_depth).set i
                (mark_max_expanded_update (select_marked nodes i max_depth) i))
              p
            have hrec := (ih (fuel - 1) (by omega)).2 _ p max_depth res hres
            have hchain2 : ParentEdgeStable nodes
                (check_max_expanded
                  ((select_marked nodes i max_depth).set i
                    (mark_max_expanded_update
                      (select_marked nodes i max_depth) i)) p) ∧
                ExpandedStable nodes
                (check_max_expanded
                  ((select_marked nodes i max_depth).set i
                    (mark_max_expanded_update
                      (select_marked nodes i max_depth) i)) p) :=
              ⟨pes_trans (pes_trans hstab1.1 hset.1) hchk.1,
                es_trans (es_trans hstab1.2 hset.2) hchk.2⟩
            refine ⟨⟨pes_trans hchain2.1 hrec.1.1,
              es_trans hchain2.2 hrec.1.2⟩, ?_⟩
            intro hi hwf
            have hwf1 : WFParent (select_marked nodes i max_depth) :=
              WFParent_pes _ _ hstab1.1 hwf
            have hpi : p < i := hwf1 i (by rw [hlen1]; exact hi) p hp
            have hlt : res.2 < (check_max_expanded
                ((select_marked nodes i max_depth).set i
                  (mark_max_expanded_update
                    (select_marked nodes i max_depth) i)) p).length := by
              apply hrec.2
              · rw [hchain2.1.1]
                exact Nat.lt_trans hpi hi
              · exact WFParent_pes _ _ hchain2.1 hwf
            rw [hchain2.1.1] at hlt
            exact hlt
        · rw [if_neg hcond] at hres
          have hr : res = (select_marked nodes i max_depth, i) := by
            simpa using hres.symm
          rw [hr]
          exact ⟨hstab1, fun hi _ => hi⟩
      | some selected_child =>
        rw [hbc] at hres
        simp only [] at hres
        have hmem : selected_child ∈ candidate_children
            (select_marked nodes i max_depth) i max_depth := by
          rcases best_child_loop_mem explore _ _ _ _ _ hbc with hm | habs
          · exact hm
          · exact absurd habs (by simp)
        have hrec := (ih (fuel - 1) (by omega)).2 _ _ max_depth res hres
        refine ⟨⟨pes_trans hstab1.1 hrec.1.1,
          es_trans hstab1.2 hrec.1.2⟩, ?_⟩
        intro hi hwf
        have hc2lt : (if (!((select_marked nodes i max_depth).getD
              selected_child dummyNode).expanded) = true then
            match min_by_rank (select_marked nodes i max_depth)
                ((children_idx (select_marked nodes i max_depth) i).filter
                  (fun j => !((select_marked nodes i max_depth).getD j
                    dummyNode).expanded)) with
            | some m => m
            | none => selected_child
          else selected_child) < (select_marked nodes i max_depth).length := by
          split
          · match hmin : min_by_rank (select_marked nodes i max_depth)
                ((children_idx (select_marked nodes i max_depth) i).filter
                  (fun j => !((select_marked nodes i max_depth).getD j
                    dummyNode).expanded)) with
            | some m =>
              have := min_by_rank_mem _ _ _ hmin
              rw [List.mem_filter] at this
              exact children_idx_lt _ _ _ this.1
            | none =>
              exact candidate_children_lt _ _ _ _ hmem
          · exact candidate_children_lt _ _ _ _ hmem
        have := hrec.2 hc2lt (WFParent_pes _ _ hstab1.1 hwf)
        rw [hlen1] at this
        exact this
    refine ⟨hbody, ?_⟩
    intro nodes i max_depth res hres
    rw [select_next_leaf] at hres
    by_cases hfuel : fuel = 0
    · rw [if_pos hfuel] at hres
      exact absurd hres (by simp)
    rw [if_neg hfuel] at hres
    by_cases hleaf : children_idx nodes i = []
    · rw [if_pos hleaf] at hres
      have hr : res = (nodes, i) := by simpa using hres.symm
      rw [hr]
      exact ⟨⟨pes_refl nodes, es_refl nodes⟩, fun hi _ => hi⟩
    rw [if_neg hleaf] at hres
    by_cases hdep : ((nodes.getD i dummyNode).depth : ℤ) = max_depth
    · rw [if_pos hdep] at hres
      simp only [] at hres
      have hset : ParentEdgeStable nodes
          (nodes.set i (mark_max_expanded_update nodes i)) ∧
          ExpandedStable nodes
          (nodes.set i (mark_max_expanded_update nodes i)) :=
        ⟨pes_set _ _ _ rfl rfl, es_set _ _ _ rfl⟩
      match hp : (nodes.getD i dummyNode).parent with
      | some p =>
        rw [hp] at hres
        simp only [] at hres
        have hchk := check_max_expanded_stable
          (nodes.set i (mark_max_expanded_update nodes i)) p
        have hrec := (ih (fuel - 1) (by omega)).2 _ p max_depth res hres
        have hchain : ParentEdgeStable nodes
            (check_max_expanded
              (nodes.set i (mark_max_expanded_update nodes i)) p) ∧
            ExpandedStable nodes
            (check_max_expanded
              (nodes.set i (mark_max_expanded_update nodes i)) p) :=
          ⟨pes_trans hset.1 hchk.1, es_trans hset.2 hchk.2⟩
        refine ⟨⟨pes_trans hchain.1 hrec.1.1,
          es_trans hchain.2 hrec.1.2⟩, ?_⟩
        intro hi hwf
        have hpi : p < i := hwf i hi p hp
        have hlt := hrec.2 (by rw [hchain.1.1]; exact Nat.lt_trans hpi hi)
          (WFParent_pes _ _ hchain.1 hwf)
        rw [hchain.1.1] at hlt
        exact hlt
      | none =>
        rw [hp] at hres
        simp only [] at hres
        have hrec := hbody _ i max_depth res hres
        refine ⟨⟨pes_trans hset.1 hrec.1.1, es_trans hset.2 hrec.1.2⟩, ?_⟩
        intro hi hwf
        have := hrec.2 (by rw [hset.1.1]; exact hi)
          (WFParent_pes _ _ hset.1 hwf)
        rw [hset.1.1] at this
        exact this
    · rw [if_neg hdep] at hres
      exact hbody _ i max_depth res hres

theorem known_lookup_insert (known : List (List ℤ × ℚ)) (h h' : List ℤ)
    (v : ℚ) :
    known_lookup (known_insert known h v) h' =
      if h = h' then some v else known_lookup known h' := by
  rw [known_insert, known_lookup]

theorem known_lookup_insert_isSome (known : List (List ℤ × ℚ))
    (h h' : List ℤ) (v : ℚ)
    (hsome : (known_lookup known h').isSome = true) :
    (known_lookup (known_insert known h v) h').isSome = true := by
  rw [known_lookup_insert]
  split <;> simp [hsome]

theorem expand_update_edge (nodes : List MCTSTreeNode) (i : ℕ)
    (prediction : ℚ) :
    (expand_update nodes i prediction).edge_id =
      (nodes.getD i dummyNode).edge_id := by
  unfold expand_update
  simp only []
  split <;> rfl

theorem mcts_expand_pes (nodes : List MCTSTreeNode) (i : ℕ)
    (prediction : ℚ) :
    ParentEdgeStable nodes (mcts_expand nodes i prediction) := by
  rw [mcts_expand]
  exact pes_trans
    (pes_set _ _ _ (expand_update_parent nodes i prediction)
      (expand_update_edge nodes i prediction))
    (expansion_backpropagation_stable _ i).1

theorem mcts_expand_expanded_ne (nodes : List MCTSTreeNode) (i j : ℕ)
    (prediction : ℚ) (hji : j ≠ i) :
    ((mcts_expand nodes i prediction).getD j dummyNode).expanded =
      (nodes.getD j dummyNode).expanded := by
  rw [mcts_expand]
  rw [(expansion_backpropagation_stable _ i).2 j]
  rw [getD_set_ne _ _ _ _ (fun he => hji he.symm)]

theorem mcts_expand_expanded_self (nodes : List MCTSTreeNode) (i : ℕ)
    (prediction : ℚ) (hi : i < nodes.length) :
    ((mcts_expand nodes i prediction).getD i dummyNode).expanded = true := by
  rw [mcts_expand]
  rw [(expansion_backpropagation_stable _ i).2 i]
  rw [getD_set_self _ _ _ hi]
  exact expand_update_expanded nodes i prediction

theorem getD_append_self (l : List MCTSTreeNode) (v : MCTSTreeNode) :
    (l ++ [v]).getD l.length dummyNode = v := by
  simp [List.getD_eq_getElem?_getD, List.getElem?_append]

theorem make_child_fields (nodes : List MCTSTreeNode) (i : ℕ) (rank : ℕ)
    (edge_id : ℤ) :
    (make_child nodes i rank edge_id).parent = some i ∧
    (make_child nodes i rank edge_id).expanded = false :=
  ⟨rfl, rfl⟩

/-- Every key of `known_states` has been oracle-scored (its hash appears in
the call log). -/
def KeysSubLog (s : MCTSState) : Prop :=
  ∀ h, (known_lookup s.known_states h).isSome = true → h ∈ s.call_log

/-- Every expanded node's exclusion-set hash appears in the call log. -/
def ExpandedHashLogged (s : MCTSState) : Prop :=
  ∀ j, j < s.nodes.length → (s.nodes.getD j dummyNode).expanded = true →
    node_hash s.nodes j ∈ s.call_log

/-- Contract of the oracle-free expansion machinery: the call log is
untouched, the arena only grows without rewiring existing nodes, the cache
only gains keys, and the invariants `KeysSubLog`, `ExpandedHashLogged` and
`WFParent` hold in the resulting state. -/
def ExpandPreserves (s s' : MCTSState) : Prop :=
  s'.call_log = s.call_log ∧
  s.nodes.length ≤ s'.nodes.length ∧
  (∀ j, j < s.nodes.length →
    (s'.nodes.getD j dummyNode).parent = (s.nodes.getD j dummyNode).parent ∧
    (s'.nodes.getD j dummyNode).edge_id = (s.nodes.getD j dummyNode).edge_id) ∧
  (∀ h, (known_lookup s.known_states h).isSome = true →
    (known_lookup s'.known_states h).isSome = true) ∧
  KeysSubLog s' ∧ ExpandedHashLogged s' ∧ WFParent s'.nodes

theorem ExpandPreserves_trans {s1 s2 s3 : MCTSState}
    (h12 : ExpandPreserves s1 s2) (h23 : ExpandPreserves s2 s3) :
    ExpandPreserves s1 s3 := by
  refine ⟨h23.1.trans h12.1, le_trans h12.2.1 h23.2.1, ?_,
    fun h hk => h23.2.2.2.1 h (h12.2.2.2.1 h hk),
    h23.2.2.2.2.1, h23.2.2.2.2.2.1, h23.2.2.2.2.2.2⟩
  intro j hj
  have hj2 : j < s2.nodes.length := lt_of_lt_of_le hj h12.2.1
  exact ⟨(h23.2.2.1 j hj2).1.trans (h12.2.2.1 j hj).1,
    (h23.2.2.1 j hj2).2.trans (h12.2.2.1 j hj).2⟩

/-- Stability of hashes of pre-existing nodes under `ExpandPreserves`. -/
theorem node_hash_expand_stable {s s' : MCTSState}
    (hep : ExpandPreserves s s') (i : ℕ) (hi : i < s.nodes.length) :
    node_hash s'.nodes i = node_hash s.nodes i := by
  unfold node_hash ancestor_edge_ids
  have hchain : ∀ k, k ≤ i → ancestor_chain s'.nodes k = ancestor_chain s.nodes k := by
    intro k hk
    induction k using Nat.strong_induction_on with
    | _ k ihk =>
      rw [ancestor_chain, ancestor_chain,
        (hep.2.2.1 k (lt_of_le_of_lt (Nat.le_of_eq rfl) (lt_of_le_of_lt hk hi))).1]
      rcases hp : (s.nodes.getD k dummyNode).parent with _ | p
      · rfl
      · simp only []
        by_cases hpk : p < k
        · rw [dif_pos hpk, dif_pos hpk,
            ihk p hpk (le_trans (Nat.le_of_lt hpk) hk)]
        · rw [dif_neg hpk, dif_neg hpk]
  rw [hchain i (le_refl i)]
  congr 1
  refine List.map_congr_left (fun j hj => ?_)
  exact (hep.2.2.1 j
    (lt_of_le_of_lt (ancestor_chain_mem_le s.nodes i j hj) hi)).2

theorem ExpandPreserves_refl (s : MCTSState) (hks : KeysSubLog s)
    (hehl : ExpandedHashLogged s) (hwf : WFParent s.nodes) :
    ExpandPreserves s s :=
  ⟨rfl, le_refl _, fun _ _ => ⟨rfl, rfl⟩, fun _ hk => hk, hks, hehl, hwf⟩

/-- The in-place expand-and-cache step at the top of `_expand_node`
(`mcts.py` lines 215-222): node `i` is expanded from the given prediction
and the prediction is cached under the node's (unchanged) hash.  All
memoization invariants survive provided the node's hash is already in the
call log. -/
theorem expand_step_preserves (s : MCTSState) (i : ℕ) (prediction : ℚ)
    (hi : i < s.nodes.length) (hks : KeysSubLog s)
    (hlog : node_hash s.nodes i ∈ s.call_log)
    (hehl : ExpandedHashLogged s) (hwf : WFParent s.nodes) :
    ExpandPreserves s { s with
      nodes := mcts_expand s.nodes i prediction,
      known_states := known_insert s.known_states
        (node_hash (mcts_expand s.nodes i prediction) i) prediction } ∧
    (known_lookup (known_insert s.known_states
        (node_hash (mcts_expand s.nodes i prediction) i) prediction)
      (node_hash s.nodes i)).isSome = true := by
  have hpes : ParentEdgeStable s.nodes (mcts_expand s.nodes i prediction) :=
    mcts_expand_pes s.nodes i prediction
  have hhash : ∀ j, node_hash (mcts_expand s.nodes i prediction) j =
      node_hash s.nodes j := node_hash_congr_pes _ _ hpes
  have hlen : (mcts_expand s.nodes i prediction).length = s.nodes.length :=
    hpes.1
  constructor
  · refine ⟨rfl, le_of_eq hlen.symm, fun j _ => hpes.2 j, ?_, ?_, ?_, ?_⟩
    · intro h hk
      exact known_lookup_insert_isSome _ _ _ _ hk
    · intro h hk
      have hk' : (known_lookup (known_insert s.known_states
          (node_hash (mcts_expand s.nodes i prediction) i) prediction)
          h).isSome = true := hk
      rw [known_lookup_insert] at hk'
      by_cases heq : node_hash (mcts_expand s.nodes i prediction) i = h
      · rw [hhash i] at heq
        exact heq ▸ hlog
      · rw [if_neg heq] at hk'
        exact hks h hk'
    · intro j hj hexp
      have hj' : j < (mcts_expand s.nodes i prediction).length := hj
      rw [hlen] at hj'
      have hexp' : ((mcts_expand s.nodes i prediction).getD j
          dummyNode).expanded = true := hexp
      show node_hash (mcts_expand s.nodes i prediction) j ∈ s.call_log
      rw [hhash j]
      by_cases hji : j = i
      · subst hji
        exact hlog
      · rw [mcts_expand_expanded_ne s.nodes i j prediction hji] at hexp'
        exact hehl j hj' hexp'
    · exact WFParent_pes _ _ hpes hwf
  · rw [known_lookup_insert, if_pos (hhash i)]
    rfl

/-- Appending a fresh unexpanded child to the arena (`mcts.py` line 231)
preserves the memoization invariants: the new node is unexpanded and its
parent precedes it, so hashes of existing nodes are unchanged. -/
theorem append_child_preserves (s : MCTSState) (i : ℕ) (rank : ℕ)
    (edge_id : ℤ) (hi : i < s.nodes.length) (hks : KeysSubLog s)
    (hehl : ExpandedHashLogged s) (hwf : WFParent s.nodes) :
    ExpandPreserves s
      { s with nodes := s.nodes ++ [make_child s.nodes i rank edge_id] } := by
  refine ⟨rfl, ?_, fun j hj => ?_, fun _ hk => hk, ?_, ?_, ?_⟩
  · rw [List.length_append]
    exact Nat.le_add_right _ _
  · rw [getD_append_lt s.nodes _ j hj]
    exact ⟨rfl, rfl⟩
  · exact hks
  · intro j hj hexp
    have hj' : j < (s.nodes ++ [make_child s.nodes i rank edge_id]).length := hj
    rw [List.length_append, List.length_singleton] at hj'
    have hexp' : ((s.nodes ++ [make_child s.nodes i rank edge_id]).getD j
        dummyNode).expanded = true := hexp
    by_cases hjl : j < s.nodes.length
    · rw [getD_append_lt s.nodes _ j hjl] at hexp'
      show node_hash (s.nodes ++ [make_child s.nodes i rank edge_id]) j ∈
        s.call_log
      rw [node_hash_append s.nodes _ j hjl]
      exact hehl j hjl hexp'
    · have hje : j = s.nodes.length := by omega
      rw [hje, getD_append_self,
        (make_child_fields s.nodes i rank edge_id).2] at hexp'
      exact Bool.noConfusion hexp'
  · intro j hj p hp
    have hj' : j < (s.nodes ++ [make_child s.nodes i rank edge_id]).length := hj
    rw [List.length_append, List.length_singleton] at hj'
    have hp' : ((s.nodes ++ [make_child s.nodes i rank edge_id]).getD j
        dummyNode).parent = some p := hp
    by_cases hjl : j < s.nodes.length
    · rw [getD_append_lt s.nodes _ j hjl] at hp'
      exact hwf j hjl p hp'
    · have hje : j = s.nodes.length := by omega
      rw [hje, getD_append_self,
        (make_child_fields s.nodes i rank edge_id).1] at hp'
      have hip : i = p := Option.some.inj hp'
      omega

/-- Joint contract of `CFTGNNExplainer._expand_node` and its child-creation
loop (`mcts.py` lines 213-234): neither makes an oracle call (the call log
is untouched), the arena only grows without rewiring existing nodes, the
memoization invariants are maintained, and after `_expand_node` the node's
hash is guaranteed to be a key of `known_states`. -/
theorem expand_props (ranker : List ℤ → List ℤ) : ∀ fuel : ℕ,
    (∀ s i prediction s',
      expand_node ranker fuel s i prediction = some s' →
      i < s.nodes.length → KeysSubLog s →
      node_hash s.nodes i ∈ s.call_log →
      ExpandedHashLogged s → WFParent s.nodes →
      ExpandPreserves s s' ∧
        (known_lookup s'.known_states (node_hash s.nodes i)).isSome = true) ∧
    (∀ s i pairs s',
      expand_children_loop ranker fuel s i pairs = some s' →
      i < s.nodes.length → KeysSubLog s →
      ExpandedHashLogged s → WFParent s.nodes →
      ExpandPreserves s s') := by
  intro fuel
  induction fuel using Nat.strong_induction_on with
  | _ fuel ih =>
    have hnode : ∀ s i prediction s',
        expand_node ranker fuel s i prediction = some s' →
        i < s.nodes.length → KeysSubLog s →
        node_hash s.nodes i ∈ s.call_log →
        ExpandedHashLogged s → WFParent s.nodes →
        ExpandPreserves s s' ∧
          (known_lookup s'.known_states (node_hash s.nodes i)).isSome = true := by
      intro s i prediction s' hres hi hks hlog hehl hwf
      rw [expand_node] at hres
      by_cases hfuel : fuel = 0
      · rw [if_pos hfuel] at hres
        exact Option.noConfusion hres
      · rw [if_neg hfuel] at hres
        simp only [] at hres
        have hstep := expand_step_preserves s i prediction hi hks hlog hehl hwf
        by_cases hcf : ((mcts_expand s.nodes i prediction).getD i
            dummyNode).is_counterfactual = true
        · rw [if_pos hcf] at hres
          have heq := Option.some.inj hres
          subst heq
          exact hstep
        · rw [if_neg hcf] at hres
          have hloop := (ih (fuel - 1) (by omega)).2 _ i _ s' hres
            (lt_of_lt_of_le hi hstep.1.2.1)
            hstep.1.2.2.2.2.1 hstep.1.2.2.2.2.2.1 hstep.1.2.2.2.2.2.2
          exact ⟨ExpandPreserves_trans hstep.1 hloop,
            hloop.2.2.2.1 _ hstep.2⟩
    refine ⟨hnode, ?_⟩
    intro s i pairs
    induction pairs generalizing s with
    | nil =>
      intro s' hres hi hks hehl hwf
      rw [expand_children_loop] at hres
      have heq := Option.some.inj hres
      subst heq
      exact ExpandPreserves_refl s hks hehl hwf
    | cons pair rest ihp =>
      rcases pair with ⟨rank, edge_id⟩
      intro s' hres hi hks hehl hwf
      rw [expand_children_loop] at hres
      simp only [] at hres
      have hep1 := append_child_preserves s i rank edge_id hi hks hehl hwf
      have hi1 : i < (s.nodes ++ [make_child s.nodes i rank edge_id]).length := by
        rw [List.length_append, List.length_singleton]
        omega
      rcases hkl : known_lookup s.known_states
          (node_hash (s.nodes ++ [make_child s.nodes i rank edge_id])
            s.nodes.length) with _ | v
      · rw [hkl] at hres
        simp only [] at hres
        have h2 := ihp _ s' hres hi1
          hep1.2.2.2.2.1 hep1.2.2.2.2.2.1 hep1.2.2.2.2.2.2
        exact ExpandPreserves_trans hep1 h2
      · rw [hkl] at hres
        simp only [] at hres
        rcases hen : expand_node ranker fuel
            { s with nodes := s.nodes ++ [make_child s.nodes i rank edge_id] }
            s.nodes.length v with _ | s2
        · rw [hen] at hres
          simp only [] at hres
          exact Option.noConfusion hres
        · rw [hen] at hres
          simp only [] at hres
          have hlen1 : s.nodes.length <
              (s.nodes ++ [make_child s.nodes i rank edge_id]).length := by
            rw [List.length_append, List.length_singleton]
            omega
          have hlog1 : node_hash
              (s.nodes ++ [make_child s.nodes i rank edge_id])
              s.nodes.length ∈ s.call_log :=
            hep1.2.2.2.2.1 _ (by
              show (known_lookup s.known_states
                (node_hash (s.nodes ++ [make_child s.nodes i rank edge_id])
                  s.nodes.length)).isSome = true
              rw [hkl]
              rfl)
          have h1 := hnode _ s.nodes.length v s2 hen hlen1
            hep1.2.2.2.2.1 hlog1 hep1.2.2.2.2.2.1 hep1.2.2.2.2.2.2
          have h2 := ihp _ s' hres
            (lt_of_lt_of_le hi1 h1.1.2.1)
            h1.1.2.2.2.2.1 h1.1.2.2.2.2.2.1 h1.1.2.2.2.2.2.2
          exact ExpandPreserves_trans hep1 (ExpandPreserves_trans h1.1 h2)

/-- Invariant of the main `explain` loop: the ghost call log is
duplicate-free, its entries are exactly the keys of `known_states`, every
expanded node's hash has been logged, and parents precede children in the
arena. -/
def LoopInv (s : MCTSState) : Prop :=
  s.call_log.Nodup ∧
  (∀ h, h ∈ s.call_log ↔ (known_lookup s.known_states h).isSome = true) ∧
  ExpandedHashLogged s ∧ WFParent s.nodes

theorem LoopInv.keysSubLog {s : MCTSState} (hinv : LoopInv s) :
    KeysSubLog s :=
  fun h hk => (hinv.2.1 h).mpr hk

theorem loopinv_expand_preserves {s s' : MCTSState}
    (hep : ExpandPreserves s s') (hinv : LoopInv s) : LoopInv s' := by
  refine ⟨?_, ?_, hep.2.2.2.2.2.1, hep.2.2.2.2.2.2⟩
  · rw [hep.1]
    exact hinv.1
  · intro h
    constructor
    · intro hmem
      rw [hep.1] at hmem
      exact hep.2.2.2.1 h ((hinv.2.1 h).mp hmem)
    · exact fun hk => hep.2.2.2.2.1 h hk

/-- A pure arena transformation that neither rewires nodes nor changes
`expanded` flags (the selection machinery, backpropagation) preserves the
loop invariant. -/
theorem loopinv_nodes_stable (s : MCTSState) (nodes' : List MCTSTreeNode)
    (hpes : ParentEdgeStable s.nodes nodes')
    (hes : ExpandedStable s.nodes nodes') (hinv : LoopInv s) :
    LoopInv { s with nodes := nodes' } := by
  refine ⟨hinv.1, hinv.2.1, ?_, WFParent_pes _ _ hpes hinv.2.2.2⟩
  intro j hj hexp
  have hj' : j < nodes'.length := hj
  rw [hpes.1] at hj'
  have hexp' : (nodes'.getD j dummyNode).expanded = true := hexp
  rw [hes j] at hexp'
  show node_hash nodes' j ∈ s.call_log
  rw [node_hash_congr_pes _ _ hpes j]
  exact hinv.2.2.1 j hj' hexp'

/-- Contract of `_run_node_expansion` (`mcts.py` lines 198-211) on a node
whose hash is not yet cached: exactly one oracle call is made (one new
hash, previously unlogged, is appended to the log), the result is cached
under the node's hash, and the loop invariant is re-established. -/
theorem run_node_expansion_inv (oracle : List ℤ → ℚ)
    (ranker : List ℤ → List ℤ) (fuel : ℕ) (s : MCTSState) (i : ℕ)
    (s' : MCTSState)
    (hres : run_node_expansion oracle ranker fuel s i = some s')
    (hi : i < s.nodes.length) (hinv : LoopInv s)
    (hnone : known_lookup s.known_states (node_hash s.nodes i) = none) :
    LoopInv s' ∧ s.nodes.length ≤ s'.nodes.length := by
  rw [run_node_expansion] at hres
  have hnotin : node_hash s.nodes i ∉ s.call_log := by
    intro hmem
    have hk := (hinv.2.1 _).mp hmem
    rw [hnone] at hk
    exact Bool.noConfusion hk
  have hks1 : KeysSubLog
      { s with call_log := s.call_log ++ [node_hash s.nodes i] } := by
    intro h hk
    exact List.mem_append_left _ ((hinv.2.1 h).mpr hk)
  have hlog1 : node_hash s.nodes i ∈ s.call_log ++ [node_hash s.nodes i] :=
    List.mem_append_right _ (List.mem_singleton.mpr rfl)
  have hehl1 : ExpandedHashLogged
      { s with call_log := s.call_log ++ [node_hash s.nodes i] } := by
    intro j hj hexp
    exact List.mem_append_left _ (hinv.2.2.1 j hj hexp)
  have hE := (expand_props ranker fuel).1 _ i _ s' hres hi hks1 hlog1 hehl1
    hinv.2.2.2
  refine ⟨⟨?_, ?_, hE.1.2.2.2.2.2.1, hE.1.2.2.2.2.2.2⟩, hE.1.2.1⟩
  · rw [hE.1.1]
    show (s.call_log ++ [node_hash s.nodes i]).Nodup
    rw [List.nodup_append]
    refine ⟨hinv.1, List.nodup_singleton _, ?_⟩
    intro a ha hb
    rw [List.mem_singleton] at hb
    subst hb
    exact hnotin ha
  · intro h
    constructor
    · intro hmem
      rw [hE.1.1] at hmem
      have hmem' : h ∈ s.call_log ++ [node_hash s.nodes i] := hmem
      rcases List.mem_append.mp hmem' with hin | hin
      · exact hE.1.2.2.2.1 h ((hinv.2.1 h).mp hin)
      · rw [List.mem_singleton] at hin
        subst hin
        exact hE.2
    · exact fun hk => hE.1.2.2.2.2.1 h hk

/-- Contract of the inner `while node_to_expand is None` loop of `explain`
(`mcts.py` lines 251-258): no oracle call is made (cache hits are expanded
from `known_states`), the loop invariant is preserved, and the returned
node is in range with an uncached hash. -/
theorem inner_select_inv (explore : ℕ → ℕ → ℚ)
    (ranker : List ℤ → List ℤ) : ∀ fuel : ℕ,
    ∀ s root max_depth s1 n,
    inner_select explore ranker fuel s root max_depth = some (s1, n) →
    root < s.nodes.length → LoopInv s →
    LoopInv s1 ∧ s.nodes.length ≤ s1.nodes.length ∧ n < s1.nodes.length ∧
    known_lookup s1.known_states (node_hash s1.nodes n) = none := by
  intro fuel
  induction fuel using Nat.strong_induction_on with
  | _ fuel ih =>
    intro s root max_depth s1 n hres hroot hinv
    rw [inner_select] at hres
    by_cases hfuel : fuel = 0
    · rw [if_pos hfuel] at hres
      exact Option.noConfusion hres
    · rw [if_neg hfuel] at hres
      simp only [] at hres
      rcases hsel : select_next_leaf explore fuel s.nodes root max_depth
        with _ | ⟨nodes1, node_to_expand⟩
      · rw [hsel] at hres
        simp only [] at hres
        exact Option.noConfusion hres
      · rw [hsel] at hres
        simp only [] at hres
        have hst := (select_stable_bound explore fuel).2 s.nodes root
          max_depth (nodes1, node_to_expand) hsel
        have hpes : ParentEdgeStable s.nodes nodes1 := hst.1.1
        have hes : ExpandedStable s.nodes nodes1 := hst.1.2
        have hlt : node_to_expand < s.nodes.length := hst.2 hroot hinv.2.2.2
        have hinv1 : LoopInv { s with nodes := nodes1 } :=
          loopinv_nodes_stable s nodes1 hpes hes hinv
        have hlen1 : s.nodes.length = nodes1.length := hpes.1.symm
        rcases hkl : known_lookup s.known_states
            (node_hash nodes1 node_to_expand) with _ | v
        · rw [hkl] at hres
          simp only [] at hres
          have heq := Option.some.inj hres
          rw [Prod.mk.injEq] at heq
          obtain ⟨heq1, heq2⟩ := heq
          subst heq1
          subst heq2
          exact ⟨hinv1, le_of_eq hlen1, hlen1 ▸ hlt, hkl⟩
        · rw [hkl] at hres
          simp only [] at hres
          rcases hen : expand_node ranker fuel { s with nodes := nodes1 }
              node_to_expand v with _ | s2
          · rw [hen] at hres
            simp only [] at hres
            exact Option.noConfusion hres
          · rw [hen] at hres
            simp only [] at hres
            have hlogmem : node_hash nodes1 node_to_expand ∈ s.call_log :=
              (hinv.2.1 _).mpr (by rw [hkl]; rfl)
            have hE := (expand_props ranker fuel).1 _ node_to_expand v s2 hen
              (show node_to_expand < nodes1.length from hlen1 ▸ hlt)
              hinv1.keysSubLog hlogmem hinv1.2.2.1 hinv1.2.2.2
            have hinv2 : LoopInv s2 := loopinv_expand_preserves hE.1 hinv1
            have hroot2 : root < s2.nodes.length :=
              lt_of_lt_of_le (hlen1 ▸ hroot) hE.1.2.1
            have hrec := ih (fuel - 1) (by omega) s2 root max_depth s1 n hres
              hroot2 hinv2
            refine ⟨hrec.1, ?_, hrec.2.2.1, hrec.2.2.2⟩
            calc s.nodes.length = nodes1.length := hlen1
              _ ≤ s2.nodes.length := hE.1.2.1
              _ ≤ s1.nodes.length := hrec.2.1

/-- The main MCTS loop (`mcts.py` lines 250-281) preserves the memoization
loop invariant and never shrinks the arena. -/
theorem mcts_explain_loop_inv (explore : ℕ → ℕ → ℚ) (oracle : List ℤ → ℚ)
    (ranker : List ℤ → List ℤ) (max_steps : ℕ) : ∀ fuel : ℕ,
    ∀ s root step max_depth best res,
    mcts_explain_loop explore oracle ranker max_steps fuel s root step
      max_depth best = some res →
    root < s.nodes.length → LoopInv s →
    LoopInv res.2 ∧ s.nodes.length ≤ res.2.nodes.length := by
  intro fuel
  induction fuel using Nat.strong_induction_on with
  | _ fuel ih =>
    intro s root step max_depth best res hres hroot hinv
    rw [mcts_explain_loop] at hres
    by_cases hfuel : fuel = 0
    · rw [if_pos hfuel] at hres
      exact Option.noConfusion hres
    · rw [if_neg hfuel] at hres
      by_cases hstep : ¬(step ≤ max_steps)
      · rw [if_pos hstep] at hres
        have heq := Option.some.inj hres
        subst heq
        exact ⟨hinv, le_refl _⟩
      · rw [if_neg hstep] at hres
        rcases hsel : inner_select explore ranker fuel s root max_depth
          with _ | ⟨s1, node_to_expand⟩
        · rw [hsel] at hres
          simp only [] at hres
          exact Option.noConfusion hres
        · rw [hsel] at hres
          simp only [] at hres
          have hs1 := inner_select_inv explore ranker fuel s root max_depth
            s1 node_to_expand hsel hroot hinv
          by_cases hover : ((s1.nodes.getD node_to_expand dummyNode).depth :
              ℤ) > max_depth
          · rw [if_pos hover] at hres
            have hst := expansion_backpropagation_stable s1.nodes
              node_to_expand
            have hinv2 : LoopInv { s1 with
                nodes := expansion_backpropagation s1.nodes node_to_expand } :=
              loopinv_nodes_stable s1 _ hst.1 hst.2 hs1.1
            have hroot2 : root <
                (expansion_backpropagation s1.nodes node_to_expand).length := by
              rw [hst.1.1]
              exact lt_of_lt_of_le hroot hs1.2.1
            have hrec := ih (fuel - 1) (by omega) _ root step max_depth best
              res hres hroot2 hinv2
            exact ⟨hrec.1,
              le_trans (le_trans hs1.2.1 (le_of_eq hst.1.1.symm)) hrec.2⟩
          · rw [if_neg hover] at hres
            by_cases hbreak : node_to_expand = root ∧
                (s1.nodes.getD root dummyNode).expanded = true
            · rw [if_pos hbreak] at hres
              have heq := Option.some.inj hres
              subst heq
              exact ⟨hs1.1, hs1.2.1⟩
            · rw [if_neg hbreak] at hres
              rcases hrun : run_node_expansion oracle ranker fuel s1
                  node_to_expand with _ | s2
              · rw [hrun] at hres
                simp only [] at hres
                exact Option.noConfusion hres
              · rw [hrun] at hres
                simp only [] at hres
                have h2 := run_node_expansion_inv oracle ranker fuel s1
                  node_to_expand s2 hrun hs1.2.2.1 hs1.1 hs1.2.2.2
                have hroot2 : root < s2.nodes.length :=
                  lt_of_lt_of_le (lt_of_lt_of_le hroot hs1.2.1) h2.2
                by_cases hcf : (s2.nodes.getD node_to_expand
                    dummyNode).is_counterfactual = true
                · rw [if_pos hcf] at hres
                  have hrec := ih (fuel - 1) (by omega) s2 root (step + 1)
                    _ _ res hres hroot2 h2.1
                  exact ⟨hrec.1, le_trans (le_trans hs1.2.1 h2.2) hrec.2⟩
                · rw [if_neg hcf] at hres
                  have hrec := ih (fuel - 1) (by omega) s2 root (step + 1)
                    max_depth best res hres hroot2 h2.1
                  exact ⟨hrec.1, le_trans (le_trans hs1.2.1 h2.2) hrec.2⟩

/-- C3: within one `explain` invocation of the UCT/CoDy variant
(`CFTGNNExplainer.explain`), each distinct exclusion set is oracle-scored
at most once: the ghost call log, which records one canonical
exclusion-set hash per oracle call of `_run_node_expansion`, is
duplicate-free in the returned state; every node that ends up expanded —
including any node whose set-equal exclusion set was first reached via a
different parent, which `_expand_node` and the inner selection loop expand
from the `known_states` cache without a new oracle call — is covered by
that single logged call for its hash; and `known_states` is cleared when
`explain` returns. -/
theorem mcts_explain_memoization (explore : ℕ → ℕ → ℚ)
    (oracle : List ℤ → ℚ) (ranker : List ℤ → List ℤ)
    (explained_event_id : ℤ) (original_prediction : ℚ)
    (max_steps fuel : ℕ) (cf : CounterFactualExample) (s' : MCTSState)
    (hres : mcts_explain explore oracle ranker explained_event_id
      original_prediction max_steps fuel = some (cf, s')) :
    s'.call_log.Nodup ∧ s'.known_states = [] ∧
    ∀ j, j < s'.nodes.length →
      (s'.nodes.getD j dummyNode).expanded = true →
      node_hash s'.nodes j ∈ s'.call_log := by
  rw [mcts_explain] at hres
  rcases hloop : mcts_explain_loop explore oracle ranker max_steps fuel
      { nodes :=
          [{ edge_id := explained_event_id, parent := none,
             sampling_rank := 0, original_prediction := original_prediction,
             prediction := some original_prediction,
             is_counterfactual := false, exploitation_score := 0,
             number_of_selections := 1, depth := 0, expanded := false,
             max_expansion_reached := false }],
        known_states := [], call_log := [] } 0 0
      (9223372036854775807 : ℤ) none with _ | ⟨best, s⟩
  · rw [hloop] at hres
    simp only [] at hres
    exact Option.noConfusion hres
  · rw [hloop] at hres
    simp only [] at hres
    have hinv0 : LoopInv
        { nodes :=
            [{ edge_id := explained_event_id, parent := none,
               sampling_rank := 0, original_prediction := original_prediction,
               prediction := some original_prediction,
               is_counterfactual := false, exploitation_score := 0,
               number_of_selections := 1, depth := 0, expanded := false,
               max_expansion_reached := false }],
          known_states := [], call_log := [] } := by
      refine ⟨List.nodup_nil, ?_, ?_, ?_⟩
      · intro h
        constructor
        · intro hmem
          exact absurd hmem (List.not_mem_nil h)
        · intro hk
          exact Bool.noConfusion (show false = true from hk)
      · intro j hj hexp
        have hj' : j < 1 := hj
        have hj0 : j = 0 := by omega
        subst hj0
        exact Bool.noConfusion (show false = true from hexp)
      · intro j hj p hp
        have hj' : j < 1 := hj
        have hj0 : j = 0 := by omega
        subst hj0
        exact Option.noConfusion (show (none : Option ℕ) = some p from hp)
    have hmain := mcts_explain_loop_inv explore oracle ranker max_steps fuel
      _ 0 0 (9223372036854775807 : ℤ) none (best, s) hloop
      (show 0 < 1 from Nat.one_pos) hinv0
    rcases best with _ | b
    · simp only [] at hres
      rcases hfb : find_best_loop s.nodes fuel 0 (children_idx s.nodes 0)
        with _ | final
      · rw [hfb] at hres
        simp only [] at hres
        exact Option.noConfusion hres
      · rw [hfb] at hres
        simp only [] at hres
        have heq := Option.some.inj hres
        rw [Prod.mk.injEq] at heq
        obtain ⟨heq1, heq2⟩ := heq
        subst heq2
        exact ⟨hmain.1.1, rfl, hmain.1.2.2.1⟩
    · simp only [] at hres
      have heq := Option.some.inj hres
      rw [Prod.mk.injEq] at heq
      obtain ⟨heq1, heq2⟩ := heq
      subst heq2
      exact ⟨hmain.1.1, rfl, hmain.1.2.2.1⟩

/-- Final state of the one-step C3 witness run (root expanded from a single
oracle call on the empty exclusion set). -/
def memoWitnessState : MCTSState :=
  { nodes :=
      [{ edge_id := 7, parent := none, sampling_rank := 0,
         original_prediction := 1, prediction := some 1,
         is_counterfactual := false, exploitation_score := 0,
         number_of_selections := 2, depth := 0, expanded := true,
         max_expansion_reached := false }],
    known_states := [], call_log := [[]] }

/-- Example returned by the one-step C3 witness run. -/
def memoWitnessCf : CounterFactualExample :=
  { original_prediction := 1, counterfactual_prediction := 1,
    achieves_counterfactual_explanation := false, event_ids := [],
    event_importances := [] }

/-- C3 witness: a one-step run (constant oracle 1, empty ranker,
`max_steps = 0`) makes a single oracle call, on the root's empty exclusion
set; the returned state has the duplicate-free call log `[[]]`, a cleared
`known_states`, and its only expanded node (the root) covered by the
logged call. -/
theorem mcts_explain_memoization_witness :
    memoWitnessState.call_log.Nodup ∧
    memoWitnessState.known_states = [] ∧
    ∀ j, j < memoWitnessState.nodes.length →
      (memoWitnessState.nodes.getD j dummyNode).expanded = true →
      node_hash memoWitnessState.nodes j ∈ memoWitnessState.call_log :=
  mcts_explain_memoization (fun _ _ => 0) (fun _ => 1) (fun _ => []) 7 1 0 5
    memoWitnessCf memoWitnessState (by
      norm_num [memoWitnessCf, memoWitnessState, mcts_explain,
        mcts_explain_loop, inner_select, select_next_leaf, select_body,
        select_marked, candidate_children, children_idx, best_child_loop,
        mcts_calculate_score, min_by_rank, mark_children_max_expanded,
        mark_max_expanded_update, check_max_expanded, run_node_expansion,
        expand_node, expand_children_loop, make_child, mcts_expand,
        expand_update, expansion_backpropagation, backprop_update,
        known_lookup, known_insert, node_hash, ancestor_edge_ids,
        ancestor_chain, pySortedBy, insortAsc, find_best_loop,
        mcts_to_cf_example, update_best_cf, calculate_prediction_delta,
        pyAbs, dummyNode, List.getD, List.range_succ])

/-! ### Claim C6: the best-effort fallback scan -/

/-- Data of a batch-search `TreeNode`
(`src/CFTGNNExplainer/explainer/searching.py`) as read by its
`find_best_non_counterfactual_example`, in the same arena style as the
UCT tree: the original prediction, the node's prediction (always a plain
float in the batch search) and the parent index, children being the
indices pointing back at a node. -/
structure BatchNode where
  original_prediction : ℚ
  prediction : ℚ
  parent : Option ℕ
deriving Repr, DecidableEq

/-- Placeholder record for out-of-range reads (never hit on well-formed
scans). -/
def batchDummy : BatchNode :=
  { original_prediction := 0, prediction := 0, parent := none }

/-- Children of batch node `i` in insertion (= index) order. -/
def batch_children_idx (nodes : List BatchNode) (i : ℕ) : List ℕ :=
  (List.range nodes.length).filter
    (fun j => (nodes.getD j batchDummy).parent == some i)

/-- Embedding of `find_best_non_counterfactual_example` of `searching.py`
(lines 31-45): a worklist scan popping from the END of the list
(`nodes_to_visit.pop()`, i.e. LIFO), comparing ONLY leaf nodes
(`explored_node.is_leaf()`) against the running best and pushing the
children of non-leaves.  Fuel models the stateful termination argument of
the `while` loop. -/
def batch_find_best_loop (nodes : List BatchNode) (fuel : ℕ) (best : ℕ)
    (worklist : List ℕ) : Option ℕ :=
  if fuel = 0 then none
  else
    match worklist.getLast? with
    | none => some best
    | some explored_node =>
      let rest := worklist.dropLast
      if batch_children_idx nodes explored_node = [] then
        let best1 :=
          if calculate_prediction_delta
                (nodes.getD best batchDummy).original_prediction
                (nodes.getD best batchDummy).prediction <
              calculate_prediction_delta
                (nodes.getD explored_node batchDummy).original_prediction
                (nodes.getD explored_node batchDummy).prediction then
            explored_node
          else best
        batch_find_best_loop nodes (fuel - 1) best1 rest
      else batch_find_best_loop nodes (fuel - 1) best
        (rest ++ batch_children_idx nodes explored_node)
termination_by fuel
decreasing_by all_goals omega

/-- `find_best_non_counterfactual_example(root)` of `searching.py`: the
scan starts with the root (index 0) as running best and the root's
children as worklist. -/
def batch_find_best (nodes : List BatchNode) (fuel : ℕ) : Option ℕ :=
  batch_find_best_loop nodes fuel 0 (batch_children_idx nodes 0)

/-- Tree for the C6 counterexample: root (delta 0) with one internal
child A = index 1 (delta 3/4) whose only child B = index 2 is a leaf
(delta 1/8). -/
def batchC6Nodes : List BatchNode :=
  [{ original_prediction := 1, prediction := 1, parent := none },
   { original_prediction := 1, prediction := 1/4, parent := some 0 },
   { original_prediction := 1, prediction := 7/8, parent := some 1 }]

/-- C6 counterexample (batch variant): the scan of `searching.py` returns
the leaf B (index 2, delta 1/8) although the visited internal node A
(index 1, delta 3/4) has a strictly larger delta — internal nodes are
never compared (`is_leaf()` guard), so the returned example is NOT the
maximum-delta visited node. -/
theorem batch_find_best_skips_internal_max :
    batch_find_best batchC6Nodes 5 = some 2 ∧
    calculate_prediction_delta
        (batchC6Nodes.getD 2 batchDummy).original_prediction
        (batchC6Nodes.getD 2 batchDummy).prediction <
      calculate_prediction_delta
        (batchC6Nodes.getD 1 batchDummy).original_prediction
        (batchC6Nodes.getD 1 batchDummy).prediction := by
  constructor
  · norm_num [batch_find_best, batch_find_best_loop, batch_children_idx,
      batchC6Nodes, batchDummy, calculate_prediction_delta, pyAbs,
      List.getD, List.range_succ, List.getLast?_singleton,
      List.getLast?_cons_cons, List.dropLast_single, List.dropLast_cons₂]
  · norm_num [batchC6Nodes, batchDummy, calculate_prediction_delta, pyAbs]

/-- Prediction delta of arena node `j` as compared by the fallback scans. -/
def node_delta (nodes : List MCTSTreeNode) (j : ℕ) : ℚ :=
  calculate_prediction_delta (nodes.getD j dummyNode).original_prediction
    ((nodes.getD j dummyNode).prediction.getD 0)

/-- Nodes visited by the worklist scan: reflexive-transitive reachability
along child edges in the arena. -/
inductive ReachesIdx (nodes : List MCTSTreeNode) : ℕ → ℕ → Prop where
  | refl (j : ℕ) : ReachesIdx nodes j j
  | step {j k l : ℕ} (hmem : k ∈ children_idx nodes j)
      (hr : ReachesIdx nodes k l) : ReachesIdx nodes j l

/-- C6 amended, UCT/CoDy variant: `find_best_non_counterfactual_example`
of `mcts.py` (the fallback used by `explain` when no counterfactual was
found within the step budget) returns a node whose prediction delta is
maximal among the initial best (the root) and every VISITED node THAT HAS
A PREDICTION — not among all visited nodes (nodes with `prediction is
None` are skipped), and the scan is a stack-based (LIFO `pop()`)
traversal, not a breadth-first one; moreover the returned node is the
initial best or one of the visited predicted nodes. -/
theorem find_best_loop_max (nodes : List MCTSTreeNode) : ∀ fuel : ℕ,
    ∀ best worklist res,
    find_best_loop nodes fuel best worklist = some res →
    node_delta nodes best ≤ node_delta nodes res ∧
    (∀ j ∈ worklist, ∀ l, ReachesIdx nodes j l →
      (nodes.getD l dummyNode).prediction ≠ none →
      node_delta nodes l ≤ node_delta nodes res) ∧
    (res = best ∨ ∃ j ∈ worklist, ReachesIdx nodes j res ∧
      (nodes.getD res dummyNode).prediction ≠ none) := by
  intro fuel
  induction fuel using Nat.strong_induction_on with
  | _ fuel ih =>
    intro best worklist res hres
    rw [find_best_loop] at hres
    by_cases hfuel : fuel = 0
    · rw [if_pos hfuel] at hres
      exact Option.noConfusion hres
    · rw [if_neg hfuel] at hres
      simp only [] at hres
      rcases hlast : worklist.getLast? with _ | e
      · rw [hlast] at hres
        simp only [] at hres
        have heq := Option.some.inj hres
        subst heq
        rw [List.getLast?_eq_none_iff] at hlast
        subst hlast
        refine ⟨le_refl _, ?_, Or.inl rfl⟩
        intro j hj
        exact absurd hj (List.not_mem_nil j)
      · rw [hlast] at hres
        simp only [] at hres
        have hsplit : worklist.dropLast ++ [e] = worklist :=
          List.dropLast_append_getLast? e hlast
        have hmem_e : e ∈ worklist := by
          rw [← hsplit]
          exact List.mem_append_right _ (List.mem_singleton.mpr rfl)
        by_cases hpred : (nodes.getD e dummyNode).prediction ≠ none
        · rw [if_pos hpred] at hres
          by_cases hlt : calculate_prediction_delta
                (nodes.getD best dummyNode).original_prediction
                ((nodes.getD best dummyNode).prediction.getD 0) <
              calculate_prediction_delta
                (nodes.getD e dummyNode).original_prediction
                ((nodes.getD e dummyNode).prediction.getD 0)
          · rw [if_pos hlt] at hres
            have hrec := ih (fuel - 1) (by omega) e
              (worklist.dropLast ++ children_idx nodes e) res hres
            refine ⟨le_trans (le_of_lt hlt) hrec.1, ?_, ?_⟩
            · intro j hj l hr hp
              rw [← hsplit] at hj
              rcases List.mem_append.mp hj with hj1 | hj2
              · exact hrec.2.1 j (List.mem_append_left _ hj1) l hr hp
              · rw [List.mem_singleton] at hj2
                subst hj2
                cases hr with
                | refl => exact hrec.1
                | step hk hkl =>
                  exact hrec.2.1 _ (List.mem_append_right _ hk) l hkl hp
            · rcases hrec.2.2 with hre | ⟨j, hj, hjr, hjp⟩
              · refine Or.inr ⟨e, hmem_e, ?_, ?_⟩
                · rw [hre]
                  exact ReachesIdx.refl e
                · rw [hre]
                  exact hpred
              · rcases List.mem_append.mp hj with hj1 | hj2
                · refine Or.inr ⟨j, ?_, hjr, hjp⟩
                  rw [← hsplit]
                  exact List.mem_append_left _ hj1
                · exact Or.inr ⟨e, hmem_e, ReachesIdx.step hj2 hjr, hjp⟩
          · rw [if_neg hlt] at hres
            have hrec := ih (fuel - 1) (by omega) best
              (worklist.dropLast ++ children_idx nodes e) res hres
            refine ⟨hrec.1, ?_, ?_⟩
            · intro j hj l hr hp
              rw [← hsplit] at hj
              rcases List.mem_append.mp hj with hj1 | hj2
              · exact hrec.2.1 j (List.mem_append_left _ hj1) l hr hp
              · rw [List.mem_singleton] at hj2
                subst hj2
                cases hr with
                | refl => exact le_trans (le_of_not_lt hlt) hrec.1
                | step hk hkl =>
                  exact hrec.2.1 _ (List.mem_append_right _ hk) l hkl hp
            · rcases hrec.2.2 with hre | ⟨j, hj, hjr, hjp⟩
              · exact Or.inl hre
              · rcases List.mem_append.mp hj with hj1 | hj2
                · refine Or.inr ⟨j, ?_, hjr, hjp⟩
                  rw [← hsplit]
                  exact List.mem_append_left _ hj1
                · exact Or.inr ⟨e, hmem_e, ReachesIdx.step hj2 hjr, hjp⟩
        · rw [if_neg hpred] at hres
          have hrec := ih (fuel - 1) (by omega) best
            (worklist.dropLast ++ children_idx nodes e) res hres
          refine ⟨hrec.1, ?_, ?_⟩
          · intro j hj l hr hp
            rw [← hsplit] at hj
            rcases List.mem_append.mp hj with hj1 | hj2
            · exact hrec.2.1 j (List.mem_append_left _ hj1) l hr hp
            · rw [List.mem_singleton] at hj2
              subst hj2
              cases hr with
              | refl => exact absurd hp hpred
              | step hk hkl =>
                exact hrec.2.1 _ (List.mem_append_right _ hk) l hkl hp
          · rcases hrec.2.2 with hre | ⟨j, hj, hjr, hjp⟩
            · exact Or.inl hre
            · rcases List.mem_append.mp hj with hj1 | hj2
              · refine Or.inr ⟨j, ?_, hjr, hjp⟩
                rw [← hsplit]
                exact List.mem_append_left _ hj1
              · exact Or.inr ⟨e, hmem_e, ReachesIdx.step hj2 hjr, hjp⟩

/-- C6 witness: on the four-node arena `depthBoundNodes` the UCT fallback
scan seeded with root 0 and worklist `[1, 3]` returns node 1, whose delta
dominates the root and every reachable predicted node. -/
theorem find_best_loop_max_witness :
    node_delta depthBoundNodes 0 ≤ node_delta depthBoundNodes 1 ∧
    (∀ j ∈ children_idx depthBoundNodes 0, ∀ l,
      ReachesIdx depthBoundNodes j l →
      (depthBoundNodes.getD l dummyNode).prediction ≠ none →
      node_delta depthBoundNodes l ≤ node_delta depthBoundNodes 1) ∧
    (1 = 0 ∨ ∃ j ∈ children_idx depthBoundNodes 0,
      ReachesIdx depthBoundNodes j 1 ∧
      (depthBoundNodes.getD 1 dummyNode).prediction ≠ none) :=
  find_best_loop_max depthBoundNodes 5 0 (children_idx depthBoundNodes 0) 1
    (by
      norm_num [find_best_loop, children_idx, depthBoundNodes, dummyNode,
        node_delta, calculate_prediction_delta, pyAbs, List.getD,
        List.range_succ, List.getLast?_singleton, List.getLast?_cons_cons,
        List.dropLast_single, List.dropLast_cons₂]
      simp)
